import Mathlib

/-!
Verification of the Aadhaar Friction Index pipeline
(`src/preprocessing.py`, `src/signal.py`, `src/index.py`, `src/utils.py`).

Numeric columns are modelled over the rationals `ℚ`.  Where the qualitative
behaviour of IEEE floats matters (NaN produced by `0/0` and propagated, NaN
comparing false under `<`, NaN skipped by min/max), values are modelled by
the type `F` below: a rational-valued idealization of a float together with
a NaN element.  Exact binary floating-point rounding is not modelled; all
claims treated here are about exact arithmetic identities, NaN propagation
and control flow, none of which depend on rounding.
-/

/-- A float-like value: either a (rational) number or NaN.  `F.nan` models
IEEE NaN as produced by `0/0` in numpy/pandas. -/
inductive F where
  | num (q : ℚ)
  | nan
  deriving DecidableEq, Repr

namespace F

/-- Addition; NaN propagates. -/
def add : F → F → F
  | num a, num b => num (a + b)
  | _, _ => nan

/-- Subtraction; NaN propagates. -/
def sub : F → F → F
  | num a, num b => num (a - b)
  | _, _ => nan

/-- Multiplication; NaN propagates (the pipeline never multiplies 0 by an
infinity, so this matches IEEE behaviour on all reachable values). -/
def mul : F → F → F
  | num a, num b => num (a * b)
  | _, _ => nan

/-- Division.  Division by zero yields NaN.  The only zero-denominator
division reachable in the modelled pipeline is `0/0` (in `normalize_afi`
the numerator is forced to 0 whenever the denominator is 0), for which
IEEE also yields NaN, so no infinity element is needed. -/
def div : F → F → F
  | num a, num b => if b = 0 then nan else num (a / b)
  | _, _ => nan

/-- Strict-less-than as it evaluates in Python on floats: any comparison
involving NaN is false. -/
def ltb : F → F → Bool
  | num a, num b => decide (a < b)
  | _, _ => false

/-- The numbers (non-NaN entries) of a list of float-like values, in order.
Models how pandas reductions (`min`, `max`, `quantile`, `median`) skip NaN. -/
def nums (l : List F) : List ℚ :=
  l.filterMap fun v => match v with | num q => some q | nan => none

end F

/-- Minimum of a nonempty rational list (`Series.min` over the non-NaN
entries); NaN for an empty list. -/
def listMin : List ℚ → F
  | [] => F.nan
  | x :: xs => F.num (xs.foldl min x)

/-- Maximum of a nonempty rational list (`Series.max` over the non-NaN
entries); NaN for an empty list. -/
def listMax : List ℚ → F
  | [] => F.nan
  | x :: xs => F.num (xs.foldl max x)

/-- Embedding of `utils.normalize_column` (src/utils.py lines 83-102) for a
series without NaN entries, modelled over `ℚ`:
if `series_max == series_min` return the constant series `min_val`,
otherwise return `min_val + (x - series_min) * (max_val - min_val) /
(series_max - series_min)` for each element `x`. -/
def normalize_column (series : List ℚ) (min_val max_val : ℚ) : List ℚ :=
  match series with
  | [] => []
  | x₀ :: xs =>
    let series_min := xs.foldl min x₀
    let series_max := xs.foldl max x₀
    if series_max = series_min then
      series.map fun _ => min_val
    else
      series.map fun x =>
        min_val + (x - series_min) * (max_val - min_val) / (series_max - series_min)

/-- Embedding of `utils.normalize_column` for a series that may contain NaN
entries (as arises after outer joins in src/signal.py).  `Series.min` and
`Series.max` skip NaN; if every entry is NaN the comparison
`series_max == series_min` is `NaN == NaN`, which is false, and the
arithmetic then propagates NaN to every entry.  If the non-NaN entries are
all equal the function returns the constant series `min_val` (including at
NaN positions, since the source builds a fresh constant series). -/
def normalizeColumnF (series : List F) (min_val max_val : ℚ) : List F :=
  match F.nums series with
  | [] => series.map fun _ => F.nan
  | x₀ :: xs =>
    let series_min := xs.foldl min x₀
    let series_max := xs.foldl max x₀
    if series_max = series_min then
      series.map fun _ => F.num min_val
    else
      series.map fun x =>
        F.add (F.num min_val)
          (F.div (F.mul (F.sub x (F.num series_min)) (F.num (max_val - min_val)))
            (F.num (series_max - series_min)))

/-! ## Model of `src/index.py` -/

/-- A row of the friction-signal table consumed by `index.py`: the composite
key plus the four signal columns. -/
structure SignalRow where
  state : String
  district : String
  period : String
  UIS : ℚ
  RIS : ℚ
  BSS : ℚ
  TSD : ℚ
  deriving DecidableEq, Repr

/-- Component weights (src/index.py lines 16-21). -/
structure Weights where
  UIS : ℚ
  RIS : ℚ
  BSS : ℚ
  TSD : ℚ
  deriving DecidableEq, Repr

/-- The default `WEIGHTS` constant (src/index.py lines 16-21). -/
def WEIGHTS : Weights := ⟨0.30, 0.25, 0.25, 0.20⟩

/-- Sum of the weight dictionary's values (src/index.py line 64). -/
def Weights.total (w : Weights) : ℚ := w.UIS + w.RIS + w.BSS + w.TSD

/-- Embedding of `np.isclose(x, 1.0)` with numpy's default tolerances
`rtol = 1e-5`, `atol = 1e-8`: true iff `|x - 1| ≤ atol + rtol * |1|`. -/
def npIsCloseOne (x : ℚ) : Bool :=
  decide (|x - 1| ≤ 1/100000000 + 1/100000)

/-- Failure raised by the index module, carrying the data interpolated into
the Python exception message. -/
inductive IndexError where
  | weightSumError (got : ℚ)
  deriving DecidableEq, Repr

/-- A signal row extended with the `AFI_raw` column. -/
structure RawRow where
  row : SignalRow
  AFI_raw : ℚ
  deriving DecidableEq, Repr

/-- Embedding of `index.calculate_afi_raw` (src/index.py lines 50-78):
raise `ValueError` (here: return `.error` carrying the offending sum) when
the weights do not sum to 1.0 up to `np.isclose`; otherwise add the column
`AFI_raw = w_UIS*UIS + w_RIS*RIS + w_BSS*BSS + w_TSD*TSD`. -/
def calculate_afi_raw (df : List SignalRow) (weights : Weights) :
    Except IndexError (List RawRow) :=
  let weight_sum := weights.total
  if npIsCloseOne weight_sum then
    .ok (df.map fun r =>
      ⟨r, weights.UIS * r.UIS + weights.RIS * r.RIS +
          weights.BSS * r.BSS + weights.TSD * r.TSD⟩)
  else
    .error (.weightSumError weight_sum)

/-- A raw-AFI row extended with the normalized `AFI` column (float-valued:
the rescale can produce NaN). -/
structure AfiRow where
  row : SignalRow
  AFI_raw : ℚ
  AFI : F
  deriving DecidableEq, Repr

/-- Embedding of `index.normalize_afi` (src/index.py lines 81-103):
`AFI = 100 * (AFI_raw - min) / (max - min)` with the column-wide min and
max; no guard stands before the division. -/
def normalize_afi (df : List RawRow) : List AfiRow :=
  let afi_min := listMin (df.map (·.AFI_raw))
  let afi_max := listMax (df.map (·.AFI_raw))
  df.map fun r =>
    ⟨r.row, r.AFI_raw,
      F.div (F.mul (F.num 100) (F.sub (F.num r.AFI_raw) afi_min))
        (F.sub afi_max afi_min)⟩

/-- Descending sort of a rational column. -/
def sortDesc (l : List ℚ) : List ℚ :=
  l.insertionSort (fun a b => a ≥ b)

/-- Embedding of `Series.rank(ascending=False, method='min')` at a value
`v` of the column: one plus the position of the first occurrence of `v` in
the descending sort of the column (`method='min'` assigns the whole tie
group the lowest position it occupies in the sort). -/
def rankMinDesc (l : List ℚ) (v : ℚ) : ℕ :=
  (sortDesc l).findIdx (fun w => decide (w = v)) + 1

/-- A row of the ranked table: the fields of `add_rankings` relevant to the
ranking claims (`national_percentile` is not modelled; no claim mentions
it). `AFI` is taken rational: `rank(...).astype(int)` is only well-defined
on NaN-free columns. -/
structure RankedRow where
  state : String
  AFI : ℚ
  national_rank : ℕ
  state_rank : ℕ
  deriving DecidableEq, Repr

/-- Embedding of `index.add_rankings` (src/index.py lines 106-129):
`national_rank` ranks the whole `AFI` column descending with min-ranks;
`state_rank` applies the same ranking within each `state` group. -/
def add_rankings (df : List (String × ℚ)) : List RankedRow :=
  df.map fun r =>
    ⟨r.1, r.2,
      rankMinDesc (df.map (·.2)) r.2,
      rankMinDesc ((df.filter fun s => decide (s.1 = r.1)).map (·.2)) r.2⟩

/-- Embedding of the inner `categorize_afi` of `index.add_categories`
(src/index.py lines 145-155): an if/elif chain of `<` comparisons whose
final `else` catches every score no `<` claims, NaN included. -/
def categorize_afi (score : F) : String :=
  if score.ltb (F.num 20) then "Very Low Friction"
  else if score.ltb (F.num 40) then "Low Friction"
  else if score.ltb (F.num 60) then "Moderate Friction"
  else if score.ltb (F.num 80) then "High Friction"
  else "Very High Friction"

/-- An AFI row extended with the `friction_category` column. -/
structure CatRow where
  row : SignalRow
  AFI_raw : ℚ
  AFI : F
  friction_category : String
  deriving DecidableEq, Repr

/-- Embedding of `index.add_categories` (src/index.py lines 132-165):
apply `categorize_afi` to the `AFI` column.  (The ranking columns pass
through the source function untouched and are not carried here.) -/
def add_categories (df : List AfiRow) : List CatRow :=
  df.map fun r => ⟨r.row, r.AFI_raw, r.AFI, categorize_afi r.AFI⟩


/-! ## Model of `src/preprocessing.py`

Strings are Lean `String`s; the Python string methods used by
`clean_common_columns` (`strip`, `title`, `lower`, `replace`) are modelled
character-by-character at their ASCII semantics (the same subset Lean's own
`Char.toLower`/`Char.toUpper` implement).  A cell of a numeric column is an
`Option ℚ`: `none` models a missing value (NaN), mirroring that pandas
reductions skip NaN and `fillna` replaces it. -/

/-- Whitespace test (ASCII), as stripped by `str.strip`. -/
def pyIsWs (c : Char) : Bool :=
  decide (c.toNat = 32 ∨ c.toNat = 9 ∨ c.toNat = 10 ∨ c.toNat = 13)

/-- Cased-letter test (ASCII), as used by `str.title` to find word starts. -/
def pyIsAlpha (c : Char) : Bool :=
  decide ((65 ≤ c.toNat ∧ c.toNat ≤ 90) ∨ (97 ≤ c.toNat ∧ c.toNat ≤ 122))

/-- ASCII lower-casing of one character (`str.lower`). -/
def pyToLower (c : Char) : Char :=
  if 65 ≤ c.toNat ∧ c.toNat ≤ 90 then Char.ofNat (c.toNat + 32) else c

/-- ASCII upper-casing of one character (`str.upper`, used inside `title`). -/
def pyToUpper (c : Char) : Char :=
  if 97 ≤ c.toNat ∧ c.toNat ≤ 122 then Char.ofNat (c.toNat - 32) else c

/-- Leading- and trailing-whitespace removal (`str.strip`). -/
def stripChars (l : List Char) : List Char :=
  ((l.dropWhile pyIsWs).reverse.dropWhile pyIsWs).reverse

/-- Worker for `str.title`: upper-case a cased letter that follows a
non-cased character, lower-case a cased letter that follows a cased one. -/
def titleAux : Bool → List Char → List Char
  | _, [] => []
  | prev, c :: cs =>
    if pyIsAlpha c then
      (if prev then pyToLower c else pyToUpper c) :: titleAux true cs
    else
      c :: titleAux false cs

/-- Model of `str.title` (ASCII). -/
def titleChars (l : List Char) : List Char := titleAux false l

/-- Model of `.str.strip().str.title()` applied to the `state` and
`district` columns (src/preprocessing.py lines 31-35). -/
def cleanName (s : String) : String := String.mk (titleChars (stripChars s.data))

/-- Model of `.str.lower().str.strip().str.replace(' ', '_')` applied to
the column names (src/preprocessing.py line 28). -/
def normalizeColName (s : String) : String :=
  String.mk (((stripChars (s.data.map pyToLower)).map
    fun c => if c = ' ' then '_' else c))

/-- Digit character for a value below 10. -/
def digitChar (d : ℕ) : Char := Char.ofNat (48 + d)

/-- Parse of a canonical `YYYY-MM` period string: exactly four digits, a
dash, and a two-digit month between 01 and 12.  This models the behaviour
of `pd.to_datetime` (src/preprocessing.py line 39) on the canonical form it
itself emits; other date-like formats the library would also accept are
treated as parse failures by this model, and a failure models the
exception `pd.to_datetime` raises on unparseable input. -/
def parseYM : List Char → Option (ℕ × ℕ)
  | [a, b, c, d, dash, e, f] =>
    if (48 ≤ a.toNat ∧ a.toNat ≤ 57) ∧ (48 ≤ b.toNat ∧ b.toNat ≤ 57) ∧
       (48 ≤ c.toNat ∧ c.toNat ≤ 57) ∧ (48 ≤ d.toNat ∧ d.toNat ≤ 57) ∧
       dash = '-' ∧ (48 ≤ e.toNat ∧ e.toNat ≤ 57) ∧ (48 ≤ f.toNat ∧ f.toNat ≤ 57) then
      let y := 1000 * (a.toNat - 48) + 100 * (b.toNat - 48) + 10 * (c.toNat - 48) +
        (d.toNat - 48)
      let m := 10 * (e.toNat - 48) + (f.toNat - 48)
      if 1 ≤ m ∧ m ≤ 12 then some (y, m) else none
    else none
  | _ => none

/-- Rendering of a parsed period back to `YYYY-MM`
(`.dt.strftime('%Y-%m')`, src/preprocessing.py line 39). -/
def formatYM (y m : ℕ) : List Char :=
  [digitChar (y / 1000 % 10), digitChar (y / 100 % 10), digitChar (y / 10 % 10),
   digitChar (y % 10), '-', digitChar (m / 10 % 10), digitChar (m % 10)]

/-- Model of `pd.to_datetime(period).dt.strftime('%Y-%m')`: parse, then
re-render canonically; `none` models the raised exception. -/
def normPeriod (s : String) : Option String :=
  (parseYM s.data).map fun ym => String.mk (formatYM ym.1 ym.2)

/-- Model of `DataFrame.drop_duplicates()` (src/preprocessing.py line 43):
keep the first occurrence of every row (later copies of the head are
filtered out of the already-deduplicated tail). -/
def drop_duplicates {α : Type} [DecidableEq α] : List α → List α
  | [] => []
  | x :: xs => x :: (drop_duplicates xs).filter fun y => decide (y ≠ x)

/-- A row of a raw or cleaned dataset: the key fields plus the numeric
cells, positionally (`none` = missing). -/
structure PRow where
  state : String
  district : String
  period : String
  vals : List (Option ℚ)
  deriving DecidableEq, Repr

/-- A dataset: column headers, the number of non-key numeric columns, and
the rows. -/
structure PData where
  headers : List String
  ncols : ℕ
  rows : List PRow
  deriving DecidableEq, Repr

/-- The grouping key of the median imputation: `(state, district)`. -/
def PRow.gkey (r : PRow) : String × String := (r.state, r.district)

/-- Column `j` of a row list, with each cell tagged by its row's
`(state, district)` group key. -/
def colOf (rows : List PRow) (j : ℕ) : List ((String × String) × Option ℚ) :=
  rows.map fun r => (r.gkey, r.vals.getD j none)

/-- Embedding of `preprocessing.clean_common_columns` (src/preprocessing.py
lines 15-49): normalize the header names, strip/title-case `state` and
`district`, canonicalize `period` (failure of the date parse aborts, as
`pd.to_datetime` raises), then drop duplicate rows. -/
def clean_common_columns (d : PData) : Option PData :=
  (d.rows.mapM fun r => (normPeriod r.period).map fun p =>
      PRow.mk (cleanName r.state) (cleanName r.district) p r.vals).map
    fun rows => ⟨d.headers.map normalizeColName, d.ncols, drop_duplicates rows⟩

/-- Linear-interpolation quantile of a column's present values, pandas
`Series.quantile(p)` (`interpolation='linear'`): `none` on an empty list,
else sort ascending, take `pos = p*(n-1)`, and interpolate between the
values at positions `⌊pos⌋` and `⌊pos⌋+1`.  `Series.median()` is the case
`p = 1/2`. -/
def quantileLinear (l : List ℚ) (p : ℚ) : Option ℚ :=
  match l.insertionSort (fun a b => a ≤ b) with
  | [] => none
  | x :: xs =>
    let pos : ℚ := p * ((l.length : ℚ) - 1)
    let i : ℕ := (Int.floor pos).toNat
    let a := (x :: xs).getD i x
    let b := (x :: xs).getD (i + 1) a
    some (a + (pos - (i : ℚ)) * (b - a))

/-- The present values of the cells sharing group key `g`. -/
def groupVals (g : String × String) (col : List ((String × String) × Option ℚ)) : List ℚ :=
  (col.filter fun e => decide (e.1 = g)).filterMap fun e => e.2

/-- Embedding of the missing-value imputation of one numeric column
(src/preprocessing.py lines 78-85): if the column has any missing value,
fill each missing cell with the median of its `(state, district)` group,
then fill cells that are still missing with the median of the
group-imputed column. -/
def imputeStep (col : List ((String × String) × Option ℚ)) :
    List ((String × String) × Option ℚ) :=
  if col.any fun e => e.2.isNone then
    let g1 := col.map fun e => (e.1, match e.2 with
      | some q => some q
      | none => quantileLinear (groupVals e.1 col) (1/2))
    let m := quantileLinear (g1.filterMap fun e => e.2) (1/2)
    g1.map fun e => (e.1, e.2.orElse fun _ => m)
  else col

/-- Embedding of the negative-value clip of one numeric column
(src/preprocessing.py lines 88-91): if any cell is negative, clip the
column at 0 (`Series.clip(lower=0)`; missing cells stay missing). -/
def clipStep (col : List ((String × String) × Option ℚ)) :
    List ((String × String) × Option ℚ) :=
  if col.any fun e => match e.2 with | some q => decide (q < 0) | none => false then
    col.map fun e => (e.1, e.2.map fun q => max q 0)
  else col

/-- Embedding of the outlier cap of one numeric column
(src/preprocessing.py lines 94-99): compute the column's 99th percentile
over its present values, and if any cell exceeds it, replace every such
cell by the percentile.  A column with no present values has threshold NaN
and no cell compares greater than NaN, so nothing changes. -/
def capStep (col : List ((String × String) × Option ℚ)) :
    List ((String × String) × Option ℚ) :=
  match quantileLinear (col.filterMap fun e => e.2) (99/100) with
  | none => col
  | some t =>
    if col.any fun e => match e.2 with | some q => decide (t < q) | none => false then
      col.map fun e => (e.1, e.2.map fun q => if t < q then t else q)
    else col

/-- The complete numeric cleaning of one column: imputation, then negative
clip, then outlier cap — the loop body shared verbatim by
`preprocess_biometric` (src/preprocessing.py lines 78-99),
`preprocess_demographic` (lines 136-156) and `preprocess_enrolment`
(lines 193-212); each column is processed independently of the others. -/
def processColumn (col : List ((String × String) × Option ℚ)) :
    List ((String × String) × Option ℚ) :=
  capStep (clipStep (imputeStep col))

/-- Apply the per-column numeric cleaning to all `ncols` columns of a row
list and reassemble the rows. -/
def processRows (rows : List PRow) (ncols : ℕ) : List PRow :=
  let cols := (List.range ncols).map fun j => processColumn (colOf rows j)
  rows.mapIdx fun i r =>
    ⟨r.state, r.district, r.period,
      cols.map fun c => (c.getD i (r.gkey, none)).2⟩

/-- Embedding of `preprocess_biometric` / `preprocess_demographic` /
`preprocess_enrolment` minus file I/O and console reporting
(src/preprocessing.py lines 52-107, 110-164, 167-220): clean the common
columns, then run the numeric per-column cleaning.  The three functions
differ only in which file they read and in reporting. -/
def preprocess_dataset (d : PData) : Option PData :=
  (clean_common_columns d).map fun d₁ =>
    ⟨d₁.headers, d₁.ncols, processRows d₁.rows d₁.ncols⟩


/-! ## Model of `src/signal.py`

For claim purposes `calculate_all_signals` is modelled over the key lists
of the three cleaned input datasets together with the four raw signal
columns (`total_updates`, `repeat_interactions`, `BSS_raw`, `TSD_raw`) as
parameters: the raw formulas (row sums, variances, temporal deviations —
src/signal.py lines 38-50, 87-98, 131-148, 186-211) produce some
float-valued column over the rows of each signal's merged table, and the
key/default/range properties claimed hold for every such column.  The
merge structure, normalization (lines 53, 101, 151, 214) and the final
outer joins with `fillna(0)` (lines 251-259) are embedded from the
source. -/

/-- The composite key `(state, district, period)`. -/
def SKey : Type := String × String × String

instance : DecidableEq SKey := by
  unfold SKey
  infer_instance

/-- Key set of a pandas outer merge: every key of the left table, then the
keys of the right table not present in the left.  (pandas also re-orders
the keys; no claim here depends on row order.) -/
def outerKeys (k₁ k₂ : List SKey) : List SKey :=
  k₁ ++ k₂.filter fun k => decide (k ∉ k₁)

/-- Value of the signal table `t` at key `k`: the value of the first row
with that key, NaN when the key is absent (which is what an outer merge
leaves in the column of an unmatched row). -/
def lookupSig (t : List (SKey × F)) (k : SKey) : F :=
  match t.find? fun e => decide (e.1 = k) with
  | some e => e.2
  | none => F.nan

/-- Final `fillna(0)` on a signal column (src/signal.py line 259). -/
def fillna0 : F → ℚ
  | F.num q => q
  | F.nan => 0

/-- A row of the final signal table: the key and the four signals, all
defined after `fillna(0)`. -/
structure SignalsOut where
  key : SKey
  UIS : ℚ
  RIS : ℚ
  BSS : ℚ
  TSD : ℚ

/-- Embedding of `signal.calculate_all_signals` (src/signal.py lines
225-269) over parametric raw columns: each signal table pairs the key set
of its own merge (UIS and RIS merge biometric+demographic, BSS uses
biometric alone, TSD merges all three) with its normalized column; the
four tables are then outer-joined and missing signals set to 0. -/
def calculate_all_signals (bioKeys demoKeys enrolKeys : List SKey)
    (rawU rawR rawB rawT : List F) : List SignalsOut :=
  let uisKeys := outerKeys bioKeys demoKeys
  let risKeys := outerKeys bioKeys demoKeys
  let bssKeys := bioKeys
  let tsdKeys := outerKeys (outerKeys bioKeys demoKeys) enrolKeys
  let uis := uisKeys.zip (normalizeColumnF rawU 0 100)
  let ris := risKeys.zip (normalizeColumnF rawR 0 100)
  let bss := bssKeys.zip (normalizeColumnF rawB 0 100)
  let tsd := tsdKeys.zip (normalizeColumnF rawT 0 100)
  let keys := outerKeys (outerKeys (outerKeys uisKeys risKeys) bssKeys) tsdKeys
  keys.map fun k =>
    ⟨k, fillna0 (lookupSig uis k), fillna0 (lookupSig ris k),
        fillna0 (lookupSig bss k), fillna0 (lookupSig tsd k)⟩

/-! ## Helper lemmas -/

theorem foldl_min_le_self : ∀ (xs : List ℚ) (a : ℚ), xs.foldl min a ≤ a
  | [], a => le_refl a
  | x :: xs, a => le_trans (foldl_min_le_self xs (min a x)) (min_le_left a x)

theorem le_foldl_max_self : ∀ (xs : List ℚ) (a : ℚ), a ≤ xs.foldl max a
  | [], a => le_refl a
  | x :: xs, a => le_trans (le_max_left a x) (le_foldl_max_self xs (max a x))

theorem foldl_min_le_mem {y : ℚ} :
    ∀ (xs : List ℚ) (a : ℚ), y ∈ xs → xs.foldl min a ≤ y := by
  intro xs
  induction xs with
  | nil => intro a h; cases h
  | cons x xs ih =>
    intro a h
    rcases List.mem_cons.mp h with rfl | h
    · exact le_trans (foldl_min_le_self xs (min a y)) (min_le_right a y)
    · exact ih (min a x) h

theorem mem_le_foldl_max {y : ℚ} :
    ∀ (xs : List ℚ) (a : ℚ), y ∈ xs → y ≤ xs.foldl max a := by
  intro xs
  induction xs with
  | nil => intro a h; cases h
  | cons x xs ih =>
    intro a h
    rcases List.mem_cons.mp h with rfl | h
    · exact le_trans (le_max_right a y) (le_foldl_max_self xs (max a y))
    · exact ih (max a x) h

theorem foldl_min_const : ∀ (xs : List ℚ) (a : ℚ), (∀ y ∈ xs, y = a) → xs.foldl min a = a := by
  intro xs
  induction xs with
  | nil => intro a _; rfl
  | cons x xs ih =>
    intro a h
    have hx : x = a := h x (List.mem_cons_self x xs)
    subst hx
    rw [List.foldl_cons, min_self]
    exact ih x fun y hy => h y (List.mem_cons_of_mem x hy)

theorem foldl_max_const : ∀ (xs : List ℚ) (a : ℚ), (∀ y ∈ xs, y = a) → xs.foldl max a = a := by
  intro xs
  induction xs with
  | nil => intro a _; rfl
  | cons x xs ih =>
    intro a h
    have hx : x = a := h x (List.mem_cons_self x xs)
    subst hx
    rw [List.foldl_cons, max_self]
    exact ih x fun y hy => h y (List.mem_cons_of_mem x hy)

theorem findIdx_eq_countP_of_sorted :
    ∀ (s : List ℚ), List.Sorted (· ≥ ·) s → ∀ v ∈ s,
      s.findIdx (fun w => decide (w = v)) = s.countP (fun w => decide (v < w)) := by
  intro s
  induction s with
  | nil => intro _ v hv; cases hv
  | cons a t ih =>
    intro hs v hv
    have ha : ∀ b ∈ t, b ≤ a := (List.sorted_cons.mp hs).1
    have ht : List.Sorted (· ≥ ·) t := (List.sorted_cons.mp hs).2
    rw [List.findIdx_cons, List.countP_cons]
    by_cases hva : a = v
    · subst hva
      have hz : t.countP (fun w => decide (a < w)) = 0 := by
        rw [List.countP_eq_zero]
        intro b hb
        simpa using not_lt_of_le (ha b hb)
      simp [hz]
    · have hvt : v ∈ t := by
        rcases List.mem_cons.mp hv with rfl | h
        · exact absurd rfl hva
        · exact h
      have hlt : v < a := lt_of_le_of_ne (ha v hvt) (fun h => hva h.symm)
      simp [hva, hlt, ih ht v hvt]

theorem rankMinDesc_eq_one_add_countP (l : List ℚ) (v : ℚ) (hv : v ∈ l) :
    rankMinDesc l v = 1 + l.countP (fun w => decide (v < w)) := by
  unfold rankMinDesc sortDesc
  have hperm : List.Perm (l.insertionSort (fun a b => a ≥ b)) l := List.perm_insertionSort _ l
  have hsort : List.Sorted (· ≥ ·) (l.insertionSort (fun a b => a ≥ b)) :=
    List.sorted_insertionSort _ l
  rw [findIdx_eq_countP_of_sorted _ hsort v (hperm.mem_iff.mpr hv), hperm.countP_eq]
  omega

theorem categorize_afi_num_bands (q : ℚ) :
    ((0 ≤ q ∧ q < 20) → categorize_afi (F.num q) = "Very Low Friction") ∧
    ((20 ≤ q ∧ q < 40) → categorize_afi (F.num q) = "Low Friction") ∧
    ((40 ≤ q ∧ q < 60) → categorize_afi (F.num q) = "Moderate Friction") ∧
    ((60 ≤ q ∧ q < 80) → categorize_afi (F.num q) = "High Friction") ∧
    ((80 ≤ q ∧ q ≤ 100) → categorize_afi (F.num q) = "Very High Friction") := by
  simp only [categorize_afi, F.ltb, decide_eq_true_eq]
  refine ⟨fun h => ?_, fun h => ?_, fun h => ?_, fun h => ?_, fun h => ?_⟩
  · rw [if_pos h.2]
  · rw [if_neg (not_lt.mpr h.1), if_pos h.2]
  · rw [if_neg (by linarith : ¬ q < 20), if_neg (not_lt.mpr h.1), if_pos h.2]
  · rw [if_neg (by linarith : ¬ q < 20), if_neg (by linarith : ¬ q < 40),
      if_neg (not_lt.mpr h.1), if_pos h.2]
  · rw [if_neg (by linarith : ¬ q < 20), if_neg (by linarith : ¬ q < 40),
      if_neg (by linarith : ¬ q < 60), if_neg (not_lt.mpr h.1)]

/-! ## Claim theorems for `src/index.py` and `src/utils.py` -/

/-- C2: with the default weights, `calculate_afi_raw` succeeds and sets
`AFI_raw = 0.30*UIS + 0.25*RIS + 0.25*BSS + 0.20*TSD` on every row; on the
fixture UIS=10, RIS=20, BSS=30, TSD=40 it yields `AFI_raw = 23.5`. -/
theorem calculate_afi_raw_default_weighted_sum :
    (∀ df : List SignalRow,
        calculate_afi_raw df WEIGHTS =
          Except.ok (df.map fun r =>
            ⟨r, 0.30 * r.UIS + 0.25 * r.RIS + 0.25 * r.BSS + 0.20 * r.TSD⟩)) ∧
    calculate_afi_raw [⟨"A", "D1", "2023-01", 10, 20, 30, 40⟩] WEIGHTS =
      Except.ok [⟨⟨"A", "D1", "2023-01", 10, 20, 30, 40⟩, 23.5⟩] := by
  have hclose : npIsCloseOne WEIGHTS.total = true := by
    norm_num [npIsCloseOne, WEIGHTS, Weights.total]
  have h1 : ∀ df : List SignalRow,
      calculate_afi_raw df WEIGHTS =
        Except.ok (df.map fun r =>
          ⟨r, 0.30 * r.UIS + 0.25 * r.RIS + 0.25 * r.BSS + 0.20 * r.TSD⟩) := by
    intro df
    simp only [calculate_afi_raw, hclose, if_true]
    rfl
  refine ⟨h1, ?_⟩
  rw [h1 [⟨"A", "D1", "2023-01", 10, 20, 30, 40⟩]]
  norm_num

/-- C8: `calculate_afi_raw` rejects (raising `ValueError` carrying the
offending sum) any weights whose sum is not within `np.isclose` of 1.0 —
in particular sums of 0.99 and 1.01 — and accepts weights summing to
exactly 1 or within 1e-9 of 1. -/
theorem calculate_afi_raw_weight_validation :
    (∀ (df : List SignalRow) (w : Weights), w.total = 0.99 →
        calculate_afi_raw df w = Except.error (IndexError.weightSumError w.total)) ∧
    (∀ (df : List SignalRow) (w : Weights), w.total = 1.01 →
        calculate_afi_raw df w = Except.error (IndexError.weightSumError w.total)) ∧
    (∀ (df : List SignalRow) (w : Weights), |w.total - 1| ≤ 1/1000000000 →
        calculate_afi_raw df w = Except.ok (df.map fun r =>
          ⟨r, w.UIS * r.UIS + w.RIS * r.RIS + w.BSS * r.BSS + w.TSD * r.TSD⟩)) ∧
    (∀ (df : List SignalRow) (w : Weights), w.total = 1 →
        calculate_afi_raw df w = Except.ok (df.map fun r =>
          ⟨r, w.UIS * r.UIS + w.RIS * r.RIS + w.BSS * r.BSS + w.TSD * r.TSD⟩)) := by
  have hok : ∀ (df : List SignalRow) (w : Weights), npIsCloseOne w.total = true →
      calculate_afi_raw df w = Except.ok (df.map fun r =>
        ⟨r, w.UIS * r.UIS + w.RIS * r.RIS + w.BSS * r.BSS + w.TSD * r.TSD⟩) := by
    intro df w h
    simp only [calculate_afi_raw, h, if_true]
  have herr : ∀ (df : List SignalRow) (w : Weights), npIsCloseOne w.total = false →
      calculate_afi_raw df w = Except.error (IndexError.weightSumError w.total) := by
    intro df w h
    simp only [calculate_afi_raw, h]
    rfl
  refine ⟨fun df w h => herr df w ?_, fun df w h => herr df w ?_,
    fun df w h => hok df w ?_, fun df w h => hok df w ?_⟩
  · rw [h]; simp only [npIsCloseOne, decide_eq_false_iff_not, abs_le, not_and, not_le]
    norm_num
  · rw [h]; simp only [npIsCloseOne, decide_eq_false_iff_not, abs_le, not_and, not_le]
    norm_num
  · simp only [npIsCloseOne, decide_eq_true_eq]
    calc |w.total - 1| ≤ 1/1000000000 := h
    _ ≤ 1/100000000 + 1/100000 := by norm_num
  · rw [h]; simp only [npIsCloseOne, decide_eq_true_eq, abs_le]
    norm_num

/-- Witness for C8 at concrete weights: sums 0.99 and 1.01 are rejected
with the sum reported, sum `1 + 1e-9` and the default exact-1 weights are
accepted. -/
theorem calculate_afi_raw_weight_validation_witness :
    calculate_afi_raw [] ⟨0.24, 0.25, 0.25, 0.25⟩ =
      Except.error (IndexError.weightSumError (Weights.total ⟨0.24, 0.25, 0.25, 0.25⟩)) ∧
    calculate_afi_raw [] ⟨0.31, 0.25, 0.25, 0.20⟩ =
      Except.error (IndexError.weightSumError (Weights.total ⟨0.31, 0.25, 0.25, 0.20⟩)) ∧
    calculate_afi_raw [] ⟨0.30, 0.25, 0.25, 0.20 + 1/1000000000⟩ = Except.ok [] ∧
    calculate_afi_raw [] WEIGHTS = Except.ok [] :=
  ⟨calculate_afi_raw_weight_validation.1 [] _ (by norm_num [Weights.total]),
   calculate_afi_raw_weight_validation.2.1 [] _ (by norm_num [Weights.total]),
   calculate_afi_raw_weight_validation.2.2.1 [] _ (by norm_num [Weights.total, abs_le]),
   calculate_afi_raw_weight_validation.2.2.2 [] WEIGHTS
     (by norm_num [Weights.total, WEIGHTS])⟩

/-- C9: `normalize_column` special-cases a constant series, returning the
configured minimum bound (default 0) everywhere instead of dividing by
zero; and every output value lies within `[min_val, max_val]` (stated for
any series, so in particular for non-constant ones). -/
theorem normalize_column_constant_and_range :
    (∀ (s : List ℚ) (mn mx : ℚ), (∀ x ∈ s, ∀ y ∈ s, x = y) →
        normalize_column s mn mx = s.map fun _ => mn) ∧
    normalize_column [7, 7, 7] 0 100 = [0, 0, 0] ∧
    (∀ (s : List ℚ) (mn mx v : ℚ), mn ≤ mx → v ∈ normalize_column s mn mx →
        mn ≤ v ∧ v ≤ mx) := by
  have hconst : ∀ (s : List ℚ) (mn mx : ℚ), (∀ x ∈ s, ∀ y ∈ s, x = y) →
      normalize_column s mn mx = s.map fun _ => mn := by
    intro s mn mx h
    match s with
    | [] => rfl
    | x₀ :: xs =>
      have hx : ∀ y ∈ xs, y = x₀ := fun y hy =>
        h y (List.mem_cons_of_mem _ hy) x₀ (List.mem_cons_self _ _)
      simp only [normalize_column, foldl_min_const xs x₀ hx, foldl_max_const xs x₀ hx]
      simp
  have hrange : ∀ (s : List ℚ) (mn mx v : ℚ), mn ≤ mx → v ∈ normalize_column s mn mx →
      mn ≤ v ∧ v ≤ mx := by
    intro s mn mx v hle hv
    match s with
    | [] => cases hv
    | x₀ :: xs =>
      simp only [normalize_column] at hv
      by_cases hc : xs.foldl max x₀ = xs.foldl min x₀
      · rw [if_pos hc] at hv
        obtain ⟨y, -, rfl⟩ := List.mem_map.mp hv
        exact ⟨le_refl mn, hle⟩
      · rw [if_neg hc] at hv
        obtain ⟨y, hy, rfl⟩ := List.mem_map.mp hv
        have hmin_le : xs.foldl min x₀ ≤ y := by
          rcases List.mem_cons.mp hy with rfl | hy'
          · exact foldl_min_le_self xs y
          · exact foldl_min_le_mem xs x₀ hy'
        have hle_max : y ≤ xs.foldl max x₀ := by
          rcases List.mem_cons.mp hy with rfl | hy'
          · exact le_foldl_max_self xs y
          · exact mem_le_foldl_max xs x₀ hy'
        have hmm : xs.foldl min x₀ ≤ xs.foldl max x₀ :=
          le_trans (foldl_min_le_self xs x₀) (le_foldl_max_self xs x₀)
        have hpos : (0:ℚ) < xs.foldl max x₀ - xs.foldl min x₀ := by
          rcases lt_or_eq_of_le hmm with h | h
          · linarith
          · exact absurd h.symm hc
        have hnum_lb : (0:ℚ) ≤ (y - xs.foldl min x₀) * (mx - mn) :=
          mul_nonneg (by linarith) (by linarith)
        have hnum_ub : (y - xs.foldl min x₀) * (mx - mn) ≤
            (xs.foldl max x₀ - xs.foldl min x₀) * (mx - mn) :=
          mul_le_mul_of_nonneg_right (by linarith) (by linarith)
        constructor
        · have := div_nonneg hnum_lb (le_of_lt hpos)
          linarith
        · have hdiv : (y - xs.foldl min x₀) * (mx - mn) /
              (xs.foldl max x₀ - xs.foldl min x₀) ≤ mx - mn := by
            rw [div_le_iff₀ hpos]
            nlinarith [hnum_ub]
          linarith
  refine ⟨hconst, ?_, hrange⟩
  have := hconst [7, 7, 7] 0 100 (by norm_num)
  simpa using this

/-- Witness for C9: a concrete constant series maps to the constant
minimum bound, and a concrete value of a non-constant series lies within
the configured range. -/
theorem normalize_column_constant_and_range_witness :
    normalize_column [7, 7, 7] 0 100 = [(7:ℚ), 7, 7].map (fun _ => 0) ∧
    ((0:ℚ) ≤ 0 ∧ (0:ℚ) ≤ 100) :=
  ⟨normalize_column_constant_and_range.1 [7, 7, 7] 0 100 (by norm_num),
   normalize_column_constant_and_range.2.2 [7, 9] 0 100 0 (by norm_num)
     (by norm_num [normalize_column])⟩

/-- C3: every row of `add_rankings` carries `national_rank` equal to one
plus the number of records with strictly greater AFI, and `state_rank`
equal to the same ranking within its own state group; on the fixture with
AFI values 90, 90, 50 the ranks are 1, 1 and 3. -/
theorem add_rankings_min_rank :
    (∀ (df : List (String × ℚ)) (r : RankedRow), r ∈ add_rankings df →
        r.national_rank = 1 + (df.map fun s => s.2).countP (fun w => decide (r.AFI < w)) ∧
        r.state_rank = 1 + ((df.filter fun s => decide (s.1 = r.state)).map fun s => s.2).countP
          (fun w => decide (r.AFI < w))) ∧
    add_rankings [("X", 90), ("Y", 90), ("Z", 50)] =
      [⟨"X", 90, 1, 1⟩, ⟨"Y", 90, 1, 1⟩, ⟨"Z", 50, 3, 1⟩] := by
  constructor
  · intro df r hr
    obtain ⟨p, hp, rfl⟩ := List.mem_map.mp hr
    constructor
    · exact rankMinDesc_eq_one_add_countP _ p.2 (List.mem_map_of_mem _ hp)
    · refine rankMinDesc_eq_one_add_countP _ p.2 (List.mem_map_of_mem _ ?_)
      exact List.mem_filter.mpr ⟨hp, by simp⟩
  · decide

/-- Witness for C3: the fixture row with AFI 50 receives national rank
`1 + 2` (two rows are strictly greater). -/
theorem add_rankings_min_rank_witness :
    (⟨"Z", (50:ℚ), 3, 1⟩ : RankedRow).national_rank =
      1 + ([("X", (90:ℚ)), ("Y", 90), ("Z", 50)].map fun s => s.2).countP
        (fun w => decide ((⟨"Z", (50:ℚ), 3, 1⟩ : RankedRow).AFI < w)) :=
  (add_rankings_min_rank.1 [("X", 90), ("Y", 90), ("Z", 50)] ⟨"Z", 50, 3, 1⟩
    (by decide)).1

/-- C4: `add_categories` assigns categories by half-open right-boundary
bands of the AFI score: `[0,20)` Very Low, `[20,40)` Low, `[40,60)`
Moderate, `[60,80)` High, `[80,100]` Very High; in particular 19.999 is
Very Low, 20.0 is Low and 100 is Very High. -/
theorem add_categories_bands :
    (∀ (df : List AfiRow) (r : CatRow), r ∈ add_categories df → ∀ q : ℚ, r.AFI = F.num q →
        ((0 ≤ q ∧ q < 20) → r.friction_category = "Very Low Friction") ∧
        ((20 ≤ q ∧ q < 40) → r.friction_category = "Low Friction") ∧
        ((40 ≤ q ∧ q < 60) → r.friction_category = "Moderate Friction") ∧
        ((60 ≤ q ∧ q < 80) → r.friction_category = "High Friction") ∧
        ((80 ≤ q ∧ q ≤ 100) → r.friction_category = "Very High Friction")) ∧
    categorize_afi (F.num 19.999) = "Very Low Friction" ∧
    categorize_afi (F.num 20) = "Low Friction" ∧
    categorize_afi (F.num 100) = "Very High Friction" := by
  refine ⟨?_, ?_, ?_, ?_⟩
  · intro df r hr q hq
    obtain ⟨a, -, rfl⟩ := List.mem_map.mp hr
    have hcat : CatRow.friction_category ⟨a.row, a.AFI_raw, a.AFI, categorize_afi a.AFI⟩ =
        categorize_afi (F.num q) := by rw [← hq]
    rw [hcat]
    exact categorize_afi_num_bands q
  · exact (categorize_afi_num_bands 19.999).1 ⟨by norm_num, by norm_num⟩
  · exact (categorize_afi_num_bands 20).2.1 ⟨by norm_num, by norm_num⟩
  · exact (categorize_afi_num_bands 100).2.2.2.2 ⟨by norm_num, by norm_num⟩

/-- Witness for C4: a row with AFI 50 in the output of `add_categories` is
categorized Moderate Friction. -/
theorem add_categories_bands_witness :
    (⟨⟨"A", "D1", "2023-01", 10, 20, 30, 40⟩, 23.5, F.num 50,
        "Moderate Friction"⟩ : CatRow).friction_category = "Moderate Friction" :=
  (add_categories_bands.1 [⟨⟨"A", "D1", "2023-01", 10, 20, 30, 40⟩, 23.5, F.num 50⟩]
      ⟨⟨"A", "D1", "2023-01", 10, 20, 30, 40⟩, 23.5, F.num 50, "Moderate Friction"⟩
      (by norm_num [add_categories, categorize_afi, F.ltb]) 50 rfl).2.2.1
    ⟨by norm_num, by norm_num⟩

/-- C1 (code behaviour at the failing input): `normalize_afi` has no guard
on the rescale; on any nonempty input whose `AFI_raw` values are all equal
— a single-record input included — the denominator `max - min` is 0, the
division is `0/0`, and every record's AFI is NaN rather than a defined
constant. -/
theorem normalize_afi_constant_input_nan :
    (∀ (df : List RawRow) (c : ℚ), df ≠ [] → (∀ r ∈ df, r.AFI_raw = c) →
        ∀ r' ∈ normalize_afi df, r'.AFI = F.nan) ∧
    normalize_afi [⟨⟨"A", "D1", "2023-01", 10, 20, 30, 40⟩, 23.5⟩] =
      [⟨⟨"A", "D1", "2023-01", 10, 20, 30, 40⟩, 23.5, F.nan⟩] := by
  have hmain : ∀ (df : List RawRow) (c : ℚ), (∀ r ∈ df, r.AFI_raw = c) →
      ∀ r' ∈ normalize_afi df, r'.AFI = F.nan := by
    intro df c hconst r' hr'
    match df with
    | [] => cases hr'
    | x :: xs =>
      have hx : x.AFI_raw = c := hconst x (List.mem_cons_self _ _)
      have hxs : ∀ y ∈ xs.map RawRow.AFI_raw, y = c := by
        intro y hy
        obtain ⟨r, hr, rfl⟩ := List.mem_map.mp hy
        exact hconst r (List.mem_cons_of_mem _ hr)
      have hmin : listMin ((x :: xs).map RawRow.AFI_raw) = F.num c := by
        simp only [List.map_cons, listMin, hx]
        rw [foldl_min_const _ _ hxs]
      have hmax : listMax ((x :: xs).map RawRow.AFI_raw) = F.num c := by
        simp only [List.map_cons, listMax, hx]
        rw [foldl_max_const _ _ hxs]
      simp only [normalize_afi] at hr'
      rw [hmin, hmax] at hr'
      obtain ⟨p, -, rfl⟩ := List.mem_map.mp hr'
      simp [F.sub, F.mul, F.div]
  refine ⟨fun df c _ h => hmain df c h, ?_⟩
  norm_num [normalize_afi, listMin, listMax, F.sub, F.mul, F.div]

/-- Witness for C1: at the concrete single-record input the AFI produced
by `normalize_afi` is NaN. -/
theorem normalize_afi_constant_input_nan_witness :
    (⟨⟨"A", "D1", "2023-01", 10, 20, 30, 40⟩, 23.5, F.nan⟩ : AfiRow).AFI = F.nan :=
  normalize_afi_constant_input_nan.1 [⟨⟨"A", "D1", "2023-01", 10, 20, 30, 40⟩, 23.5⟩]
    23.5 (by simp) (by intro r hr; simp at hr; rw [hr])
    ⟨⟨"A", "D1", "2023-01", 10, 20, 30, 40⟩, 23.5, F.nan⟩
    (by rw [normalize_afi_constant_input_nan.2]; exact List.mem_singleton_self _)

/-- C10: the final `else` of `categorize_afi` catches every score on which
all `<` comparisons are false — NaN in particular — so any record whose
normalized AFI is NaN is categorized "Very High Friction". -/
theorem categorize_afi_nan_very_high :
    (∀ s : F, s.ltb (F.num 20) = false → s.ltb (F.num 40) = false →
        s.ltb (F.num 60) = false → s.ltb (F.num 80) = false →
        categorize_afi s = "Very High Friction") ∧
    categorize_afi F.nan = "Very High Friction" ∧
    (∀ (df : List RawRow) (r : CatRow), r ∈ add_categories (normalize_afi df) →
        r.AFI = F.nan → r.friction_category = "Very High Friction") := by
  refine ⟨?_, rfl, ?_⟩
  · intro s h1 h2 h3 h4
    simp [categorize_afi, h1, h2, h3, h4]
  · intro df r hr hnan
    obtain ⟨a, -, rfl⟩ := List.mem_map.mp hr
    have : a.AFI = F.nan := hnan
    simp only [CatRow.friction_category]
    rw [this]
    rfl

/-- Witness for C10: NaN itself is categorized "Very High Friction", and
the record of a concrete single-row pipeline run (whose AFI is NaN) is
assigned "Very High Friction". -/
theorem categorize_afi_nan_very_high_witness :
    categorize_afi F.nan = "Very High Friction" ∧
    (⟨⟨"A", "D1", "2023-01", 10, 20, 30, 40⟩, 23.5, F.nan,
        "Very High Friction"⟩ : CatRow).friction_category = "Very High Friction" :=
  ⟨categorize_afi_nan_very_high.1 F.nan rfl rfl rfl rfl,
   categorize_afi_nan_very_high.2.2 [⟨⟨"A", "D1", "2023-01", 10, 20, 30, 40⟩, 23.5⟩]
     ⟨⟨"A", "D1", "2023-01", 10, 20, 30, 40⟩, 23.5, F.nan, "Very High Friction"⟩
     (by norm_num [add_categories, normalize_afi, listMin, listMax, F.sub, F.mul, F.div,
        categorize_afi, F.ltb]) rfl⟩

theorem outerKeys_mem {k : SKey} {l₁ l₂ : List SKey} :
    k ∈ outerKeys l₁ l₂ ↔ k ∈ l₁ ∨ k ∈ l₂ := by
  unfold outerKeys
  simp only [List.mem_append, List.mem_filter, decide_eq_true_eq]
  constructor
  · rintro (h | ⟨h, -⟩)
    · exact Or.inl h
    · exact Or.inr h
  · rintro (h | h)
    · exact Or.inl h
    · by_cases h₁ : k ∈ l₁
      · exact Or.inl h₁
      · exact Or.inr ⟨h, h₁⟩

theorem outerKeys_nodup {l₁ l₂ : List SKey} (h₁ : l₁.Nodup) (h₂ : l₂.Nodup) :
    (outerKeys l₁ l₂).Nodup := by
  unfold outerKeys
  refine List.Nodup.append h₁ (h₂.filter _) ?_
  intro a ha₁ ha₂
  simp only [List.mem_filter, decide_eq_true_eq] at ha₂
  exact ha₂.2 ha₁

theorem rescale_bounds {smn smx y mn mx : ℚ} (h1 : smn ≤ y) (h2 : y ≤ smx)
    (h3 : smn < smx) (hle : mn ≤ mx) :
    mn ≤ mn + (y - smn) * (mx - mn) / (smx - smn) ∧
    mn + (y - smn) * (mx - mn) / (smx - smn) ≤ mx := by
  have hpos : (0:ℚ) < smx - smn := by linarith
  have hnum_lb : (0:ℚ) ≤ (y - smn) * (mx - mn) := mul_nonneg (by linarith) (by linarith)
  have hnum_ub : (y - smn) * (mx - mn) ≤ (smx - smn) * (mx - mn) :=
    mul_le_mul_of_nonneg_right (by linarith) (by linarith)
  constructor
  · have := div_nonneg hnum_lb (le_of_lt hpos)
    linarith
  · have hdiv : (y - smn) * (mx - mn) / (smx - smn) ≤ mx - mn := by
      rw [div_le_iff₀ hpos]
      nlinarith [hnum_ub]
    linarith

theorem normalizeColumnF_range (series : List F) :
    ∀ v ∈ normalizeColumnF series 0 100,
      v = F.nan ∨ ∃ q : ℚ, v = F.num q ∧ 0 ≤ q ∧ q ≤ 100 := by
  intro v hv
  unfold normalizeColumnF at hv
  rcases hnums : F.nums series with - | ⟨x₀, xs⟩ <;> rw [hnums] at hv <;> dsimp only at hv
  · obtain ⟨-, -, rfl⟩ := List.mem_map.mp hv
    exact Or.inl rfl
  · by_cases heq : xs.foldl max x₀ = xs.foldl min x₀
    · rw [if_pos heq] at hv
      obtain ⟨-, -, rfl⟩ := List.mem_map.mp hv
      exact Or.inr ⟨0, rfl, le_refl 0, by norm_num⟩
    · rw [if_neg heq] at hv
      obtain ⟨x, hx, rfl⟩ := List.mem_map.mp hv
      match x with
      | F.nan => exact Or.inl rfl
      | F.num q =>
        right
        have hq : q ∈ F.nums series := by
          unfold F.nums
          exact List.mem_filterMap.mpr ⟨F.num q, hx, rfl⟩
        rw [hnums] at hq
        have hlow : xs.foldl min x₀ ≤ q := by
          rcases List.mem_cons.mp hq with rfl | h
          · exact foldl_min_le_self xs q
          · exact foldl_min_le_mem xs x₀ h
        have hhigh : q ≤ xs.foldl max x₀ := by
          rcases List.mem_cons.mp hq with rfl | h
          · exact le_foldl_max_self xs q
          · exact mem_le_foldl_max xs x₀ h
        have hmm : xs.foldl min x₀ ≤ xs.foldl max x₀ :=
          le_trans (foldl_min_le_self xs x₀) (le_foldl_max_self xs x₀)
        have hlt : xs.foldl min x₀ < xs.foldl max x₀ :=
          lt_of_le_of_ne hmm (fun h => heq h.symm)
        have hb := rescale_bounds hlow hhigh hlt (by norm_num : (0:ℚ) ≤ 100)
        refine ⟨0 + (q - xs.foldl min x₀) * (100 - 0) / (xs.foldl max x₀ - xs.foldl min x₀),
          ?_, hb.1, hb.2⟩
        simp only [F.sub, F.mul, F.add, F.div]
        rw [if_neg (by intro h; exact heq (by linarith))]

theorem fillna0_range {v : F}
    (hv : v = F.nan ∨ ∃ q : ℚ, v = F.num q ∧ 0 ≤ q ∧ q ≤ 100) :
    0 ≤ fillna0 v ∧ fillna0 v ≤ 100 := by
  rcases hv with rfl | ⟨q, rfl, h1, h2⟩
  · exact ⟨le_refl 0, by norm_num [fillna0]⟩
  · exact ⟨h1, h2⟩

theorem lookup_zip_normalized_range (keys : List SKey) (raw : List F) (k : SKey) :
    0 ≤ fillna0 (lookupSig (keys.zip (normalizeColumnF raw 0 100)) k) ∧
    fillna0 (lookupSig (keys.zip (normalizeColumnF raw 0 100)) k) ≤ 100 := by
  apply fillna0_range
  rcases hfind : (keys.zip (normalizeColumnF raw 0 100)).find? (fun e => decide (e.1 = k))
    with - | e
  · simp only [lookupSig, hfind]
    exact Or.inl trivial
  · simp only [lookupSig, hfind]
    have he : e ∈ keys.zip (normalizeColumnF raw 0 100) := List.mem_of_find?_eq_some hfind
    exact normalizeColumnF_range raw e.2 (List.of_mem_zip he).2

/-- C7: for key-unique cleaned inputs, the signal table built by
`calculate_all_signals` has exactly one row per key appearing in any of
the three inputs (its key column is duplicate-free and contains exactly
the union of the input key sets), and every signal value — defaulted to 0
where a signal is missing after the outer joins — lies in `[0, 100]`. -/
theorem calculate_all_signals_keys_and_range :
    ∀ (bioKeys demoKeys enrolKeys : List SKey) (rawU rawR rawB rawT : List F),
      bioKeys.Nodup → demoKeys.Nodup → enrolKeys.Nodup →
      ((calculate_all_signals bioKeys demoKeys enrolKeys rawU rawR rawB rawT).map
          SignalsOut.key).Nodup ∧
      (∀ k : SKey,
        k ∈ (calculate_all_signals bioKeys demoKeys enrolKeys rawU rawR rawB rawT).map
            SignalsOut.key ↔ (k ∈ bioKeys ∨ k ∈ demoKeys ∨ k ∈ enrolKeys)) ∧
      (∀ r ∈ calculate_all_signals bioKeys demoKeys enrolKeys rawU rawR rawB rawT,
        (0 ≤ r.UIS ∧ r.UIS ≤ 100) ∧ (0 ≤ r.RIS ∧ r.RIS ≤ 100) ∧
        (0 ≤ r.BSS ∧ r.BSS ≤ 100) ∧ (0 ≤ r.TSD ∧ r.TSD ≤ 100)) := by
  intro bioKeys demoKeys enrolKeys rawU rawR rawB rawT h₁ h₂ h₃
  have hkeys : (calculate_all_signals bioKeys demoKeys enrolKeys rawU rawR rawB rawT).map
      SignalsOut.key =
      outerKeys (outerKeys (outerKeys (outerKeys bioKeys demoKeys)
        (outerKeys bioKeys demoKeys)) bioKeys)
        (outerKeys (outerKeys bioKeys demoKeys) enrolKeys) := by
    simp only [calculate_all_signals, List.map_map]
    exact List.map_id'' (fun x => rfl) _
  refine ⟨?_, ?_, ?_⟩
  · rw [hkeys]
    exact outerKeys_nodup
      (outerKeys_nodup (outerKeys_nodup (outerKeys_nodup h₁ h₂) (outerKeys_nodup h₁ h₂)) h₁)
      (outerKeys_nodup (outerKeys_nodup h₁ h₂) h₃)
  · intro k
    rw [hkeys]
    simp only [outerKeys_mem]
    tauto
  · intro r hr
    simp only [calculate_all_signals] at hr
    obtain ⟨k, -, rfl⟩ := List.mem_map.mp hr
    exact ⟨lookup_zip_normalized_range _ rawU k, lookup_zip_normalized_range _ rawR k,
      lookup_zip_normalized_range _ rawB k, lookup_zip_normalized_range _ rawT k⟩

/-- Witness for C7 on concrete singleton inputs: the output key column is
duplicate-free and a concrete key of one input appears in it. -/
theorem calculate_all_signals_keys_and_range_witness :
    ((calculate_all_signals [("A", "D", "2023-01")] [("B", "D", "2023-01")]
        [("C", "D", "2023-01")] [F.num 3, F.num 7] [F.nan, F.num 4] [F.num 5]
        [F.num 1, F.num 1, F.num 1]).map SignalsOut.key).Nodup ∧
    ((("A", "D", "2023-01") : SKey) ∈
        (calculate_all_signals [("A", "D", "2023-01")] [("B", "D", "2023-01")]
          [("C", "D", "2023-01")] [F.num 3, F.num 7] [F.nan, F.num 4] [F.num 5]
          [F.num 1, F.num 1, F.num 1]).map SignalsOut.key ↔
      ((("A", "D", "2023-01") : SKey) ∈ [(("A", "D", "2023-01") : SKey)] ∨
       (("A", "D", "2023-01") : SKey) ∈ [(("B", "D", "2023-01") : SKey)] ∨
       (("A", "D", "2023-01") : SKey) ∈ [(("C", "D", "2023-01") : SKey)])) :=
  ⟨(calculate_all_signals_keys_and_range [("A", "D", "2023-01")] [("B", "D", "2023-01")]
      [("C", "D", "2023-01")] [F.num 3, F.num 7] [F.nan, F.num 4] [F.num 5]
      [F.num 1, F.num 1, F.num 1] (by decide) (by decide) (by decide)).1,
   (calculate_all_signals_keys_and_range [("A", "D", "2023-01")] [("B", "D", "2023-01")]
      [("C", "D", "2023-01")] [F.num 3, F.num 7] [F.nan, F.num 4] [F.num 5]
      [F.num 1, F.num 1, F.num 1] (by decide) (by decide) (by decide)).2.1
     ("A", "D", "2023-01")⟩

theorem getD_mem_or_default {α : Type} (l : List α) (i : ℕ) (d : α) :
    l.getD i d ∈ l ∨ l.getD i d = d := by
  rw [List.getD_eq_getElem?_getD]
  by_cases h : i < l.length
  · rw [List.getElem?_eq_getElem h]
    exact Or.inl (List.getElem_mem h)
  · rw [List.getElem?_eq_none (le_of_not_lt h)]
    exact Or.inr rfl

theorem quantileLinear_isSome (l : List ℚ) (p : ℚ) (h : l ≠ []) :
    ∃ t, quantileLinear l p = some t := by
  unfold quantileLinear
  rcases hs : l.insertionSort (fun a b => a ≤ b) with - | ⟨x, xs⟩
  · exfalso
    have hlen := (List.perm_insertionSort (fun a b => a ≤ b) l).length_eq
    rw [hs] at hlen
    exact h (List.length_eq_zero.mp hlen.symm)
  · exact ⟨_, rfl⟩

theorem quantileLinear_mem_bounds {l : List ℚ} {p t : ℚ} (hp : 0 ≤ p)
    (ht : quantileLinear l p = some t) :
    ∃ a b f : ℚ, a ∈ l ∧ b ∈ l ∧ 0 ≤ f ∧ f < 1 ∧ t = a + f * (b - a) := by
  unfold quantileLinear at ht
  rcases hs : l.insertionSort (fun a b => a ≤ b) with - | ⟨x, xs⟩ <;> rw [hs] at ht <;>
    dsimp only at ht
  · cases ht
  · have hperm := List.perm_insertionSort (fun a b => a ≤ b) l
    rw [hs] at hperm
    have hsub : ∀ y ∈ x :: xs, y ∈ l := fun y hy => hperm.subset hy
    have hn1 : 1 ≤ l.length := by
      rw [← hperm.length_eq]
      simp
    have hpos0 : 0 ≤ p * ((l.length : ℚ) - 1) := by
      apply mul_nonneg hp
      have : (1:ℚ) ≤ (l.length : ℚ) := by exact_mod_cast hn1
      linarith
    set pos : ℚ := p * ((l.length : ℚ) - 1) with hposdef
    have hcast : ((Int.floor pos).toNat : ℚ) = ((Int.floor pos : ℤ) : ℚ) := by
      exact_mod_cast congrArg (fun z : ℤ => (z : ℚ))
        (Int.toNat_of_nonneg (Int.floor_nonneg.mpr hpos0))
    have hf0 : 0 ≤ pos - ((Int.floor pos).toNat : ℚ) := by
      rw [hcast]
      have := Int.floor_le pos
      linarith
    have hf1 : pos - ((Int.floor pos).toNat : ℚ) < 1 := by
      rw [hcast]
      have := Int.lt_floor_add_one pos
      push_cast at this ⊢
      linarith
    have hamem : (x :: xs).getD (Int.floor pos).toNat x ∈ l := by
      rcases getD_mem_or_default (x :: xs) (Int.floor pos).toNat x with h | h
      · exact hsub _ h
      · rw [h]; exact hsub x (List.mem_cons_self _ _)
    have hbmem : (x :: xs).getD ((Int.floor pos).toNat + 1)
        ((x :: xs).getD (Int.floor pos).toNat x) ∈ l := by
      rcases getD_mem_or_default (x :: xs) ((Int.floor pos).toNat + 1)
          ((x :: xs).getD (Int.floor pos).toNat x) with h | h
      · exact hsub _ h
      · rw [h]; exact hamem
    exact ⟨_, _, _, hamem, hbmem, hf0, hf1, (Option.some.inj ht).symm⟩

theorem quantileLinear_nonneg {l : List ℚ} {p t : ℚ} (hp : 0 ≤ p)
    (hl : ∀ x ∈ l, 0 ≤ x) (ht : quantileLinear l p = some t) : 0 ≤ t := by
  obtain ⟨a, b, f, ha, hb, hf0, hf1, rfl⟩ := quantileLinear_mem_bounds hp ht
  nlinarith [hl a ha, hl b hb]

theorem imputeStep_map_fst (col : List ((String × String) × Option ℚ)) :
    (imputeStep col).map Prod.fst = col.map Prod.fst := by
  unfold imputeStep
  split_ifs with h
  · simp [List.map_map, Function.comp]
  · rfl

theorem clipStep_map_fst (col : List ((String × String) × Option ℚ)) :
    (clipStep col).map Prod.fst = col.map Prod.fst := by
  unfold clipStep
  split_ifs with h
  · simp [List.map_map, Function.comp]
  · rfl

theorem capStep_map_fst (col : List ((String × String) × Option ℚ)) :
    (capStep col).map Prod.fst = col.map Prod.fst := by
  unfold capStep
  rcases quantileLinear (col.filterMap fun e => e.2) (99/100) with - | t
  · rfl
  · dsimp only
    split_ifs with h
    · simp [List.map_map, Function.comp]
    · rfl

theorem processColumn_map_fst (col : List ((String × String) × Option ℚ)) :
    (processColumn col).map Prod.fst = col.map Prod.fst := by
  unfold processColumn
  rw [capStep_map_fst, clipStep_map_fst, imputeStep_map_fst]

theorem processColumn_length (col : List ((String × String) × Option ℚ)) :
    (processColumn col).length = col.length := by
  have h := congrArg List.length (processColumn_map_fst col)
  simpa using h

theorem orElse_isSome_right {α : Type} (a : Option α) {m : Option α} (t : α)
    (hm : m = some t) : (a.orElse fun _ => m).isSome = true := by
  cases a <;> rw [hm] <;> rfl

theorem imputeStep_all_some (col : List ((String × String) × Option ℚ))
    (h : col.any (fun e => e.2.isSome) = true) :
    ∀ e ∈ imputeStep col, e.2.isSome = true := by
  intro e he
  unfold imputeStep at he
  split_ifs at he with hmiss
  · dsimp only at he
    obtain ⟨e1, he1, rfl⟩ := List.mem_map.mp he
    obtain ⟨e2, he2, rfl⟩ := List.mem_map.mp he1
    obtain ⟨e0, he0, h0⟩ := List.any_eq_true.mp h
    obtain ⟨q0, hq0⟩ := Option.isSome_iff_exists.mp h0
    have hmem : q0 ∈ (col.map fun e => ((e.1, match e.2 with
        | some q => some q
        | none => quantileLinear (groupVals e.1 col) (1/2)) :
          (String × String) × Option ℚ)).filterMap fun e => e.2 := by
      refine List.mem_filterMap.mpr ⟨(e0.1, some q0), ?_, rfl⟩
      refine List.mem_map.mpr ⟨e0, he0, ?_⟩
      rw [hq0]
    obtain ⟨t, hqt⟩ := quantileLinear_isSome _ (1/2) (List.ne_nil_of_mem hmem)
    exact orElse_isSome_right _ t hqt
  · rcases h3 : e.2 with - | q
    · exfalso
      have hno : ¬ col.any (fun e => e.2.isNone) = true := hmiss
      rw [List.any_eq_true] at hno
      exact hno ⟨e, he, by rw [h3]; rfl⟩
    · rfl

theorem imputeStep_of_all_none (col : List ((String × String) × Option ℚ))
    (h : ∀ e ∈ col, e.2 = none) : imputeStep col = col := by
  unfold imputeStep
  split_ifs with hmiss
  · dsimp only
    have hg : ∀ g : String × String, groupVals g col = [] := by
      intro g
      unfold groupVals
      rw [List.filterMap_eq_nil_iff]
      intro e he
      exact h e (List.mem_of_mem_filter he)
    have hg1 : (col.map fun e => ((e.1, match e.2 with
        | some q => some q
        | none => quantileLinear (groupVals e.1 col) (1/2)) :
          (String × String) × Option ℚ)) = col.map fun e => (e.1, none) := by
      refine List.map_congr_left fun e he => ?_
      rw [h e he, hg e.1]
      rfl
    rw [hg1, List.filterMap_map]
    have hnil : (col.filterMap fun e =>
        ((fun e : (String × String) × Option ℚ => e.2) ∘
          fun e : (String × String) × Option ℚ => (e.1, (none : Option ℚ))) e) = [] := by
      rw [List.filterMap_eq_nil_iff]
      intro e he
      rfl
    rw [hnil, List.map_map]
    have : ∀ e ∈ col, ((fun e : (String × String) × Option ℚ =>
        (e.1, e.2.orElse fun _ => quantileLinear [] (1/2))) ∘
          fun e : (String × String) × Option ℚ => (e.1, (none : Option ℚ))) e = e := by
      intro e he
      have h2 := h e he
      simp only [Function.comp]
      rw [← h2]
      rcases e with ⟨k, v⟩
      simp only at h2
      rw [h2]
      rfl
    rw [List.map_congr_left this, List.map_id']
  · rfl

theorem clipStep_nonneg (col : List ((String × String) × Option ℚ)) :
    ∀ e ∈ clipStep col, ∀ q, e.2 = some q → 0 ≤ q := by
  intro e he q hq
  unfold clipStep at he
  split_ifs at he with h
  · obtain ⟨e1, -, rfl⟩ := List.mem_map.mp he
    obtain ⟨q0, -, hq0⟩ := Option.map_eq_some'.mp hq
    rw [← hq0]
    exact le_max_right q0 0
  · by_contra hneg
    push_neg at hneg
    have hno : ¬ col.any
        (fun e => match e.2 with | some q => decide (q < 0) | none => false) = true := h
    rw [List.any_eq_true] at hno
    refine hno ⟨e, he, ?_⟩
    rw [hq]
    simpa using hneg

theorem clipStep_all_some (col : List ((String × String) × Option ℚ))
    (h : ∀ e ∈ col, e.2.isSome = true) :
    ∀ e ∈ clipStep col, e.2.isSome = true := by
  intro e he
  unfold clipStep at he
  split_ifs at he with hg
  · obtain ⟨e1, he1, rfl⟩ := List.mem_map.mp he
    have := h e1 he1
    obtain ⟨q0, hq0⟩ := Option.isSome_iff_exists.mp this
    rw [hq0]
    rfl
  · exact h e he

theorem clipStep_of_all_none (col : List ((String × String) × Option ℚ))
    (h : ∀ e ∈ col, e.2 = none) : clipStep col = col := by
  unfold clipStep
  rw [if_neg]
  intro hg
  obtain ⟨e, he, hp⟩ := List.any_eq_true.mp hg
  rw [h e he] at hp
  cases hp

theorem capStep_all_some (col : List ((String × String) × Option ℚ))
    (h : ∀ e ∈ col, e.2.isSome = true) :
    ∀ e ∈ capStep col, e.2.isSome = true := by
  intro e he
  unfold capStep at he
  rcases hqt : quantileLinear (col.filterMap fun e => e.2) (99/100) with - | t <;>
    rw [hqt] at he
  · exact h e he
  · dsimp only at he
    split_ifs at he with hg
    · obtain ⟨e1, he1, rfl⟩ := List.mem_map.mp he
      obtain ⟨q0, hq0⟩ := Option.isSome_iff_exists.mp (h e1 he1)
      rw [hq0]
      rfl
    · exact h e he

theorem capStep_of_all_none (col : List ((String × String) × Option ℚ))
    (h : ∀ e ∈ col, e.2 = none) : capStep col = col := by
  unfold capStep
  have hnil : (col.filterMap fun e => e.2) = [] := by
    rw [List.filterMap_eq_nil_iff]
    exact h
  rw [hnil]
  rfl

theorem capStep_le (col : List ((String × String) × Option ℚ)) (t : ℚ)
    (hqt : quantileLinear (col.filterMap fun e => e.2) (99/100) = some t) :
    ∀ e ∈ capStep col, ∀ q, e.2 = some q → q ≤ t := by
  intro e he q hq
  unfold capStep at he
  rw [hqt] at he
  dsimp only at he
  split_ifs at he with hg
  · obtain ⟨e1, -, rfl⟩ := List.mem_map.mp he
    obtain ⟨q0, -, hq0⟩ := Option.map_eq_some'.mp hq
    rw [← hq0]
    by_cases hlt : t < q0
    · rw [if_pos hlt]
    · rw [if_neg hlt]
      exact le_of_not_lt hlt
  · by_contra hgt
    push_neg at hgt
    have hno : ¬ col.any
        (fun e => match e.2 with | some q => decide (t < q) | none => false) = true := hg
    rw [List.any_eq_true] at hno
    refine hno ⟨e, he, ?_⟩
    rw [hq]
    simpa using hgt

theorem capStep_nonneg (col : List ((String × String) × Option ℚ))
    (hnn : ∀ e ∈ col, ∀ q, e.2 = some q → 0 ≤ q) :
    ∀ e ∈ capStep col, ∀ q, e.2 = some q → 0 ≤ q := by
  intro e he q hq
  unfold capStep at he
  rcases hqt : quantileLinear (col.filterMap fun e => e.2) (99/100) with - | t
  · rw [hqt] at he
    exact hnn e he q hq
  · rw [hqt] at he
    have ht : 0 ≤ t := by
      refine quantileLinear_nonneg (by norm_num) ?_ hqt
      intro x hx
      obtain ⟨e1, he1, hx1⟩ := List.mem_filterMap.mp hx
      exact hnn e1 he1 x hx1
    dsimp only at he
    split_ifs at he with hg
    · obtain ⟨e1, he1, rfl⟩ := List.mem_map.mp he
      obtain ⟨q0, hq0m, hq0⟩ := Option.map_eq_some'.mp hq
      rw [← hq0]
      by_cases hlt : t < q0
      · rw [if_pos hlt]; exact ht
      · rw [if_neg hlt]; exact hnn e1 he1 q0 hq0m
    · exact hnn e he q hq

theorem processColumn_nonneg (col : List ((String × String) × Option ℚ)) :
    ∀ e ∈ processColumn col, ∀ q, e.2 = some q → 0 ≤ q :=
  capStep_nonneg _ (clipStep_nonneg _)

theorem processColumn_dichotomy (col : List ((String × String) × Option ℚ)) :
    (∀ e ∈ processColumn col, e.2.isSome = true) ∨
    (∀ e ∈ processColumn col, e.2 = none) := by
  by_cases h : col.any (fun e => e.2.isSome) = true
  · exact Or.inl (capStep_all_some _ (clipStep_all_some _ (imputeStep_all_some col h)))
  · right
    have hall : ∀ e ∈ col, e.2 = none := by
      intro e he
      rcases h2 : e.2 with - | q
      · rfl
      · exact absurd (List.any_eq_true.mpr ⟨e, he, by rw [h2]; rfl⟩) h
    intro e he
    unfold processColumn at he
    rw [imputeStep_of_all_none col hall, clipStep_of_all_none col hall,
      capStep_of_all_none col hall] at he
    exact hall e he

theorem processColumn_cap_bound (col : List ((String × String) × Option ℚ)) (t : ℚ)
    (hqt : quantileLinear ((clipStep (imputeStep col)).filterMap fun e => e.2)
      (99/100) = some t) :
    ∀ e ∈ processColumn col, ∀ q, e.2 = some q → q ≤ t :=
  capStep_le _ t hqt

theorem colOf_processRows (rows : List PRow) (ncols : ℕ) (j : ℕ) (hj : j < ncols) :
    colOf (processRows rows ncols) j = processColumn (colOf rows j) := by
  have hlen_col : (colOf rows j).length = rows.length := by simp [colOf]
  have hlen_proc : (processColumn (colOf rows j)).length = rows.length := by
    rw [processColumn_length, hlen_col]
  have hfst : ∀ i : ℕ, ((processColumn (colOf rows j))[i]?).map Prod.fst =
      ((colOf rows j)[i]?).map Prod.fst := by
    intro i
    rw [← List.getElem?_map, processColumn_map_fst, List.getElem?_map]
  refine List.ext_getElem? fun i => ?_
  by_cases hi : i < rows.length
  · have hrow : rows[i]? = some (rows[i]) := List.getElem?_eq_getElem hi
    have hproc_lt : i < (processColumn (colOf rows j)).length := by
      rw [hlen_proc]; exact hi
    have hRHS : (processColumn (colOf rows j))[i]? =
        some ((processColumn (colOf rows j))[i]) :=
      List.getElem?_eq_getElem hproc_lt
    have hcol : (colOf rows j)[i]? =
        some ((rows[i]).gkey, (rows[i]).vals.getD j none) := by
      simp only [colOf, List.getElem?_map, hrow, Option.map_some']
    have hkey : ((processColumn (colOf rows j))[i]).1 = (rows[i]).gkey := by
      have h2 := hfst i
      rw [hRHS, hcol] at h2
      simpa using h2
    have hcols_len : ((List.range ncols).map
        fun j => processColumn (colOf rows j)).length = ncols := by simp
    have hvals : (((List.range ncols).map fun j => processColumn (colOf rows j)).map
        fun c => (c.getD i ((rows[i]).gkey, none)).2).getD j none =
        ((processColumn (colOf rows j))[i]).2 := by
      have hjlt : j < (((List.range ncols).map
          fun j => processColumn (colOf rows j)).map
            fun c => (c.getD i ((rows[i]).gkey, none)).2).length := by
        simp [hj]
      rw [List.getD_eq_getElem?_getD, List.getElem?_eq_getElem hjlt]
      simp only [Option.getD_some, List.getElem_map, List.getElem_range]
      rw [List.getD_eq_getElem?_getD, List.getElem?_eq_getElem hproc_lt]
      rfl
    rw [processRows, colOf, List.getElem?_map, List.getElem?_mapIdx, hrow, hRHS]
    simp only [Option.map_some']
    rw [Option.some_inj]
    refine Prod.ext ?_ ?_
    · dsimp only [PRow.gkey]
      rw [hkey]
      rfl
    · dsimp only
      exact hvals
  · have hnone₁ : rows[i]? = none := List.getElem?_eq_none (le_of_not_lt hi)
    have hnone₂ : (processColumn (colOf rows j))[i]? = none :=
      List.getElem?_eq_none (by rw [hlen_proc]; exact le_of_not_lt hi)
    rw [processRows, colOf, List.getElem?_map, List.getElem?_mapIdx, hnone₁, hnone₂]
    rfl

theorem quantileLinear_pair (x y : ℚ) (hxy : x ≤ y) :
    quantileLinear [x, y] (99/100) = some (x + 99/100 * (y - x)) := by
  have hsort : List.insertionSort (fun a b => a ≤ b) [x, y] = [x, y] := by
    simp only [List.insertionSort, List.orderedInsert]
    rw [if_pos hxy]
  unfold quantileLinear
  rw [hsort]
  dsimp only
  have hlen : ((List.length [x, y] : ℕ) : ℚ) - 1 = 1 := by norm_num
  rw [hlen, mul_one]
  have hfloor : ⌊(99/100 : ℚ)⌋ = 0 := by
    rw [Int.floor_eq_iff]
    constructor <;> norm_num
  rw [hfloor]
  norm_num

theorem quantileLinear_single (x : ℚ) :
    quantileLinear [x] (99/100) = some x := by
  unfold quantileLinear
  have hsort : List.insertionSort (fun a b => a ≤ b) [x] = [x] := by
    simp [List.insertionSort, List.orderedInsert]
  rw [hsort]
  dsimp only
  have hlen : ((List.length [x] : ℕ) : ℚ) - 1 = 0 := by norm_num
  rw [hlen, mul_zero]
  have hfloor : ⌊(0 : ℚ)⌋ = 0 := by norm_num
  rw [hfloor]
  norm_num

/-- C5 (amended): every cleaned dataset has columns with no negative
values; a column is fully imputed (no missing values) unless it contains
no observed value at all, in which case it stays entirely missing; and no
value exceeds the column's 99th percentile computed over the imputed,
negative-clipped data at the moment of capping (the pre-cap data) — not
over the final post-cap data, on which the bound can fail. -/
theorem preprocess_cleaned_column_bounds :
    ∀ (d d₁ c : PData), clean_common_columns d = some d₁ →
      preprocess_dataset d = some c →
      ∀ j, j < c.ncols →
        (∀ e ∈ colOf c.rows j, ∀ q, e.2 = some q → 0 ≤ q) ∧
        ((∀ e ∈ colOf c.rows j, e.2.isSome = true) ∨
          (∀ e ∈ colOf c.rows j, e.2 = none)) ∧
        (∀ t, quantileLinear ((clipStep (imputeStep (colOf d₁.rows j))).filterMap
            fun e => e.2) (99/100) = some t →
          ∀ e ∈ colOf c.rows j, ∀ q, e.2 = some q → q ≤ t) := by
  intro d d₁ c hclean hpre j hj
  have hc : c = ⟨d₁.headers, d₁.ncols, processRows d₁.rows d₁.ncols⟩ := by
    unfold preprocess_dataset at hpre
    rw [hclean] at hpre
    exact (Option.some.inj hpre).symm
  subst hc
  have hcol : colOf (processRows d₁.rows d₁.ncols) j = processColumn (colOf d₁.rows j) :=
    colOf_processRows _ _ j hj
  dsimp only at hcol hj ⊢
  rw [hcol]
  exact ⟨processColumn_nonneg _, processColumn_dichotomy _,
    fun t ht => processColumn_cap_bound _ t ht⟩

theorem quantile99_of_0_100 : quantileLinear [0, 100] (99/100) = some 99 := by
  have h := quantileLinear_pair 0 100 (by norm_num)
  rw [h]
  norm_num

theorem quantile99_of_0_99 : quantileLinear [0, 99] (99/100) = some (9801/100) := by
  have h := quantileLinear_pair 0 99 (by norm_num)
  rw [h]
  norm_num

theorem quantile99_of_5_5 : quantileLinear [5, 5] (99/100) = some 5 := by
  have h := quantileLinear_pair 5 5 (by norm_num)
  rw [h]
  norm_num

theorem capStep_eval_0_100 :
    capStep [((("A", "D1") : String × String), some (0:ℚ)), (("A", "D2"), some 100)] =
      [((("A", "D1") : String × String), some (0:ℚ)), (("A", "D2"), some 99)] := by
  unfold capStep
  rw [show (List.filterMap (fun e => e.2)
      [((("A", "D1") : String × String), some (0:ℚ)), (("A", "D2"), some 100)]) =
      [0, 100] from rfl]
  rw [quantile99_of_0_100]
  decide

theorem processColumn_eval_0_100 :
    processColumn [((("A", "D1") : String × String), some (0:ℚ)), (("A", "D2"), some 100)] =
      [((("A", "D1") : String × String), some (0:ℚ)), (("A", "D2"), some 99)] := by
  unfold processColumn
  rw [show imputeStep [((("A", "D1") : String × String), some (0:ℚ)), (("A", "D2"), some 100)] =
      [((("A", "D1") : String × String), some (0:ℚ)), (("A", "D2"), some 100)] from by decide]
  rw [show clipStep [((("A", "D1") : String × String), some (0:ℚ)), (("A", "D2"), some 100)] =
      [((("A", "D1") : String × String), some (0:ℚ)), (("A", "D2"), some 100)] from by decide]
  exact capStep_eval_0_100

theorem preprocess_eval_0_100 :
    preprocess_dataset ⟨["State", "District", "Period", "V"], 1,
      [⟨"A", "D1", "2023-01", [some 0]⟩, ⟨"A", "D2", "2023-01", [some 100]⟩]⟩ =
    some ⟨["state", "district", "period", "v"], 1,
      [⟨"A", "D1", "2023-01", [some 0]⟩, ⟨"A", "D2", "2023-01", [some 99]⟩]⟩ := by
  unfold preprocess_dataset
  rw [show clean_common_columns ⟨["State", "District", "Period", "V"], 1,
      [⟨"A", "D1", "2023-01", [some 0]⟩, ⟨"A", "D2", "2023-01", [some 100]⟩]⟩ =
      some ⟨["state", "district", "period", "v"], 1,
        [⟨"A", "D1", "2023-01", [some 0]⟩, ⟨"A", "D2", "2023-01", [some 100]⟩]⟩ from by decide]
  rw [Option.map_some']
  rw [Option.some_inj]
  show PData.mk _ _ (processRows _ 1) = _
  unfold processRows
  rw [show List.range 1 = [0] from rfl]
  dsimp only [List.map_cons, List.map_nil]
  rw [show colOf [(⟨"A", "D1", "2023-01", [some 0]⟩ : PRow),
      ⟨"A", "D2", "2023-01", [some 100]⟩] 0 =
      [((("A", "D1") : String × String), some (0:ℚ)), (("A", "D2"), some 100)] from by decide]
  rw [processColumn_eval_0_100]
  decide

/-- Counterexample for C5 as stated: on the dataset with single column
values 0 and 100, cleaning caps 100 at the pre-cap 99th percentile 99, but
the 99th percentile of the final (post-cap) column [0, 99] is 98.01, which
the retained value 99 exceeds. -/
theorem preprocess_postcap_percentile_counterexample :
    preprocess_dataset ⟨["State", "District", "Period", "V"], 1,
        [⟨"A", "D1", "2023-01", [some 0]⟩, ⟨"A", "D2", "2023-01", [some 100]⟩]⟩ =
      some ⟨["state", "district", "period", "v"], 1,
        [⟨"A", "D1", "2023-01", [some 0]⟩, ⟨"A", "D2", "2023-01", [some 99]⟩]⟩ ∧
    ((("A", "D2") : String × String), some (99:ℚ)) ∈
      colOf [(⟨"A", "D1", "2023-01", [some 0]⟩ : PRow),
        ⟨"A", "D2", "2023-01", [some 99]⟩] 0 ∧
    quantileLinear ((colOf [(⟨"A", "D1", "2023-01", [some 0]⟩ : PRow),
        ⟨"A", "D2", "2023-01", [some 99]⟩] 0).filterMap fun e => e.2) (99/100) =
      some (9801/100) ∧
    ¬ ((99:ℚ) ≤ 9801/100) := by
  refine ⟨preprocess_eval_0_100, by decide, ?_, by norm_num⟩
  rw [show ((colOf [(⟨"A", "D1", "2023-01", [some 0]⟩ : PRow),
      ⟨"A", "D2", "2023-01", [some 99]⟩] 0).filterMap fun e => e.2) =
      [(0:ℚ), 99] from by decide]
  exact quantile99_of_0_99

/-- Witness for C5 (amended) on the concrete 0/100 dataset: the value 99
kept in the cleaned column is bounded by the pre-cap 99th percentile 99. -/
theorem preprocess_cleaned_column_bounds_witness : (99:ℚ) ≤ 99 :=
  (preprocess_cleaned_column_bounds
    ⟨["State", "District", "Period", "V"], 1,
      [⟨"A", "D1", "2023-01", [some 0]⟩, ⟨"A", "D2", "2023-01", [some 100]⟩]⟩
    ⟨["state", "district", "period", "v"], 1,
      [⟨"A", "D1", "2023-01", [some 0]⟩, ⟨"A", "D2", "2023-01", [some 100]⟩]⟩
    ⟨["state", "district", "period", "v"], 1,
      [⟨"A", "D1", "2023-01", [some 0]⟩, ⟨"A", "D2", "2023-01", [some 99]⟩]⟩
    (by decide) preprocess_eval_0_100 0 (by decide)).2.2 99
    (by
      rw [show ((clipStep (imputeStep (colOf (⟨["state", "district", "period", "v"], 1,
          [⟨"A", "D1", "2023-01", [some 0]⟩, ⟨"A", "D2", "2023-01", [some 100]⟩]⟩ :
            PData).rows 0))).filterMap fun e => e.2) = [(0:ℚ), 100] from by decide]
      exact quantile99_of_0_100)
    (("A", "D2"), some 99) (by decide) 99 rfl

theorem toNat_ofNat_lt {n : ℕ} (h : n < 55296) : (Char.ofNat n).toNat = n := by
  rw [Char.ofNat, dif_pos (Or.inl h)]
  rfl

theorem pyToLower_idem (c : Char) : pyToLower (pyToLower c) = pyToLower c := by
  unfold pyToLower
  by_cases h : 65 ≤ c.toNat ∧ c.toNat ≤ 90
  · rw [if_pos h, if_neg]
    intro hcon
    rw [toNat_ofNat_lt (by omega)] at hcon
    omega
  · rw [if_neg h, if_neg h]

theorem pyToUpper_idem (c : Char) : pyToUpper (pyToUpper c) = pyToUpper c := by
  unfold pyToUpper
  by_cases h : 97 ≤ c.toNat ∧ c.toNat ≤ 122
  · rw [if_pos h, if_neg]
    intro hcon
    rw [toNat_ofNat_lt (by omega)] at hcon
    omega
  · rw [if_neg h, if_neg h]

theorem pyIsAlpha_pyToUpper (c : Char) : pyIsAlpha (pyToUpper c) = pyIsAlpha c := by
  unfold pyIsAlpha pyToUpper
  by_cases h : 97 ≤ c.toNat ∧ c.toNat ≤ 122
  · rw [if_pos h, toNat_ofNat_lt (by omega)]
    exact decide_eq_decide.mpr (by omega)
  · rw [if_neg h]

theorem pyIsAlpha_pyToLower (c : Char) : pyIsAlpha (pyToLower c) = pyIsAlpha c := by
  unfold pyIsAlpha pyToLower
  by_cases h : 65 ≤ c.toNat ∧ c.toNat ≤ 90
  · rw [if_pos h, toNat_ofNat_lt (by omega)]
    exact decide_eq_decide.mpr (by omega)
  · rw [if_neg h]

theorem pyIsWs_pyToUpper (c : Char) : pyIsWs (pyToUpper c) = pyIsWs c := by
  unfold pyIsWs pyToUpper
  by_cases h : 97 ≤ c.toNat ∧ c.toNat ≤ 122
  · rw [if_pos h, toNat_ofNat_lt (by omega)]
    exact decide_eq_decide.mpr (by omega)
  · rw [if_neg h]

theorem pyIsWs_pyToLower (c : Char) : pyIsWs (pyToLower c) = pyIsWs c := by
  unfold pyIsWs pyToLower
  by_cases h : 65 ≤ c.toNat ∧ c.toNat ≤ 90
  · rw [if_pos h, toNat_ofNat_lt (by omega)]
    exact decide_eq_decide.mpr (by omega)
  · rw [if_neg h]

theorem titleAux_map_pyIsWs : ∀ (l : List Char) (b : Bool),
    (titleAux b l).map pyIsWs = l.map pyIsWs := by
  intro l
  induction l with
  | nil => intro b; rfl
  | cons c cs ih =>
    intro b
    unfold titleAux
    by_cases h : pyIsAlpha c = true
    · rw [if_pos h]
      cases b
      · simp only [Bool.false_eq_true, if_false, List.map_cons, pyIsWs_pyToUpper, ih]
      · simp only [if_true, List.map_cons, pyIsWs_pyToLower, ih]
    · rw [if_neg h]
      simp only [List.map_cons, ih]

theorem titleAux_idem : ∀ (l : List Char) (b : Bool),
    titleAux b (titleAux b l) = titleAux b l := by
  intro l
  induction l with
  | nil => intro b; rfl
  | cons c cs ih =>
    intro b
    conv_lhs => rw [titleAux]
    conv_rhs => rw [titleAux]
    by_cases h : pyIsAlpha c = true
    · rw [if_pos h]
      cases b
      · simp only [Bool.false_eq_true, if_false]
        rw [titleAux, if_pos (by rw [pyIsAlpha_pyToUpper]; exact h)]
        simp only [Bool.false_eq_true, if_false]
        rw [pyToUpper_idem, ih true]
      · simp only [if_true]
        rw [titleAux, if_pos (by rw [pyIsAlpha_pyToLower]; exact h)]
        simp only [if_true]
        rw [pyToLower_idem, ih true]
    · rw [if_neg h]
      rw [titleAux, if_neg h, ih false]

theorem dropWhile_head?_not {α : Type} (p : α → Bool) (l : List α) :
    ∀ c, (l.dropWhile p).head? = some c → p c = false := by
  intro c hc
  have hne : l.dropWhile p ≠ [] := by
    intro hnil
    rw [hnil] at hc
    cases hc
  have hhead := List.head_dropWhile_not p l hne
  rw [List.head?_eq_head hne] at hc
  rw [← Option.some.inj hc]
  exact Bool.not_eq_true _ ▸ (by simpa using hhead)

theorem dropWhile_eq_self_of_head? {α : Type} (p : α → Bool) (l : List α)
    (h : ∀ c, l.head? = some c → p c = false) : l.dropWhile p = l := by
  cases l with
  | nil => rfl
  | cons c cs =>
    rw [List.dropWhile_cons, if_neg]
    simp [h c rfl]

theorem suffix_getLast? {α : Type} {l₁ l₂ : List α} (h : l₁ <:+ l₂) :
    ∀ c, l₁.getLast? = some c → l₂.getLast? = some c := by
  intro c hc
  obtain ⟨t, rfl⟩ := h
  rw [List.getLast?_append, hc]
  rfl

theorem stripChars_head?_not (l : List Char) :
    ∀ c, (stripChars l).head? = some c → pyIsWs c = false := by
  intro c hc
  unfold stripChars at hc
  rw [List.head?_reverse] at hc
  have h2 := suffix_getLast? (List.dropWhile_suffix pyIsWs) c hc
  rw [List.getLast?_reverse] at h2
  exact dropWhile_head?_not pyIsWs l c h2

theorem stripChars_getLast?_not (l : List Char) :
    ∀ c, (stripChars l).getLast? = some c → pyIsWs c = false := by
  intro c hc
  unfold stripChars at hc
  rw [List.getLast?_reverse] at hc
  exact dropWhile_head?_not pyIsWs (l.dropWhile pyIsWs).reverse c hc

theorem stripChars_eq_self (l : List Char)
    (h1 : ∀ c, l.head? = some c → pyIsWs c = false)
    (h2 : ∀ c, l.getLast? = some c → pyIsWs c = false) : stripChars l = l := by
  unfold stripChars
  rw [dropWhile_eq_self_of_head? pyIsWs l h1]
  rw [dropWhile_eq_self_of_head? pyIsWs l.reverse (by
    intro c hc
    rw [List.head?_reverse] at hc
    exact h2 c hc)]
  exact List.reverse_reverse l

theorem stripChars_idem (l : List Char) : stripChars (stripChars l) = stripChars l :=
  stripChars_eq_self _ (stripChars_head?_not l) (stripChars_getLast?_not l)

theorem stripChars_titleChars_strip (l : List Char) :
    stripChars (titleChars (stripChars l)) = titleChars (stripChars l) := by
  apply stripChars_eq_self
  · intro c hc
    have hmap := titleAux_map_pyIsWs (stripChars l) false
    have h1 : ((titleChars (stripChars l)).map pyIsWs).head? = some (pyIsWs c) := by
      rw [List.head?_map, hc]
      rfl
    unfold titleChars at h1
    rw [hmap, List.head?_map] at h1
    rcases hu : (stripChars l).head? with - | c'
    · rw [hu] at h1
      cases h1
    · rw [hu] at h1
      rw [← Option.some.inj h1]
      exact stripChars_head?_not l c' hu
  · intro c hc
    have hmap := titleAux_map_pyIsWs (stripChars l) false
    have h1 : ((titleChars (stripChars l)).map pyIsWs).getLast? = some (pyIsWs c) := by
      rw [List.getLast?_map, hc]
      rfl
    unfold titleChars at h1
    rw [hmap, List.getLast?_map] at h1
    rcases hu : (stripChars l).getLast? with - | c'
    · rw [hu] at h1
      cases h1
    · rw [hu] at h1
      rw [← Option.some.inj h1]
      exact stripChars_getLast?_not l c' hu

theorem cleanName_idem (s : String) : cleanName (cleanName s) = cleanName s := by
  unfold cleanName
  have hdata : (String.mk (titleChars (stripChars s.data))).data =
      titleChars (stripChars s.data) := rfl
  rw [hdata, stripChars_titleChars_strip]
  unfold titleChars
  rw [titleAux_idem]

theorem mem_stripChars {c : Char} {l : List Char} (h : c ∈ stripChars l) : c ∈ l := by
  unfold stripChars at h
  rw [List.mem_reverse] at h
  have h2 := (List.dropWhile_sublist pyIsWs).subset h
  rw [List.mem_reverse] at h2
  exact (List.dropWhile_sublist pyIsWs).subset h2

theorem normalizeColName_idem (s : String) :
    normalizeColName (normalizeColName s) = normalizeColName s := by
  unfold normalizeColName
  have hdata : (String.mk ((stripChars (s.data.map pyToLower)).map
      fun c => if c = ' ' then '_' else c)).data =
      (stripChars (s.data.map pyToLower)).map fun c => if c = ' ' then '_' else c := rfl
  rw [hdata]
  congr 1
  have h1 : ((stripChars (s.data.map pyToLower)).map
      (fun c => if c = ' ' then '_' else c)).map pyToLower =
      (stripChars (s.data.map pyToLower)).map fun c => if c = ' ' then '_' else c := by
    refine List.map_congr_left ?_ |>.trans (List.map_id' _)
    intro c hc
    obtain ⟨b, hb, rfl⟩ := List.mem_map.mp hc
    obtain ⟨c0, -, rfl⟩ := List.mem_map.mp (mem_stripChars hb)
    by_cases hsp : pyToLower c0 = ' '
    · rw [if_pos hsp]
      decide
    · rw [if_neg hsp]
      exact pyToLower_idem c0
  rw [h1]
  have h2 : stripChars ((stripChars (s.data.map pyToLower)).map
      fun c => if c = ' ' then '_' else c) =
      (stripChars (s.data.map pyToLower)).map fun c => if c = ' ' then '_' else c := by
    apply stripChars_eq_self
    · intro c hc
      rw [List.head?_map] at hc
      rcases hu : (stripChars (s.data.map pyToLower)).head? with - | c'
      · rw [hu] at hc
        cases hc
      · rw [hu] at hc
        have hws := stripChars_head?_not _ c' hu
        rw [← Option.some.inj hc]
        show pyIsWs (if c' = ' ' then '_' else c') = false
        by_cases hsp : c' = ' '
        · rw [if_pos hsp]
          decide
        · rw [if_neg hsp]
          exact hws
    · intro c hc
      rw [List.getLast?_map] at hc
      rcases hu : (stripChars (s.data.map pyToLower)).getLast? with - | c'
      · rw [hu] at hc
        cases hc
      · rw [hu] at hc
        have hws := stripChars_getLast?_not _ c' hu
        rw [← Option.some.inj hc]
        show pyIsWs (if c' = ' ' then '_' else c') = false
        by_cases hsp : c' = ' '
        · rw [if_pos hsp]
          decide
        · rw [if_neg hsp]
          exact hws
  rw [h2, List.map_map]
  refine List.map_congr_left fun b _ => ?_
  simp only [Function.comp]
  by_cases hsp : b = ' '
  · rw [if_pos hsp]
    decide
  · rw [if_neg hsp, if_neg hsp]

theorem parseYM_formatYM {y m : ℕ} (hy : y < 10000) (hm1 : 1 ≤ m) (hm2 : m ≤ 12) :
    parseYM (formatYM y m) = some (y, m) := by
  have e1 : (Char.ofNat (48 + y / 1000 % 10)).toNat = 48 + y / 1000 % 10 :=
    toNat_ofNat_lt (by omega)
  have e2 : (Char.ofNat (48 + y / 100 % 10)).toNat = 48 + y / 100 % 10 :=
    toNat_ofNat_lt (by omega)
  have e3 : (Char.ofNat (48 + y / 10 % 10)).toNat = 48 + y / 10 % 10 :=
    toNat_ofNat_lt (by omega)
  have e4 : (Char.ofNat (48 + y % 10)).toNat = 48 + y % 10 :=
    toNat_ofNat_lt (by omega)
  have e5 : (Char.ofNat (48 + m / 10 % 10)).toNat = 48 + m / 10 % 10 :=
    toNat_ofNat_lt (by omega)
  have e6 : (Char.ofNat (48 + m % 10)).toNat = 48 + m % 10 :=
    toNat_ofNat_lt (by omega)
  unfold formatYM digitChar parseYM
  dsimp only
  rw [e1, e2, e3, e4, e5, e6]
  rw [if_pos ⟨⟨by omega, by omega⟩, ⟨by omega, by omega⟩, ⟨by omega, by omega⟩,
    ⟨by omega, by omega⟩, rfl, ⟨by omega, by omega⟩, ⟨by omega, by omega⟩⟩]
  rw [if_pos (by constructor <;> omega)]
  rw [Option.some_inj, Prod.mk.injEq]
  constructor <;> omega

theorem parseYM_bounds {l : List Char} {y m : ℕ} (h : parseYM l = some (y, m)) :
    y < 10000 ∧ 1 ≤ m ∧ m ≤ 12 := by
  unfold parseYM at h
  split at h
  · dsimp only at h
    split_ifs at h with hc1 hc2
    obtain ⟨⟨ha1, ha2⟩, ⟨hb1, hb2⟩, ⟨hc1', hc2'⟩, ⟨hd1, hd2⟩, -, ⟨he1, he2⟩, ⟨hf1, hf2⟩⟩ := hc1
    rw [Option.some_inj, Prod.mk.injEq] at h
    obtain ⟨hy, hm⟩ := h
    constructor
    · omega
    · rw [← hm]
      exact hc2
  · cases h

theorem normPeriod_roundtrip {s p : String} (h : normPeriod s = some p) :
    normPeriod p = some p := by
  unfold normPeriod at h ⊢
  rcases hp : parseYM s.data with - | ym
  · rw [hp] at h
    cases h
  · rw [hp] at h
    simp only [Option.map_some'] at h
    obtain ⟨hy, hm1, hm2⟩ := parseYM_bounds ((Prod.mk.eta (p := ym)) ▸ hp)
    rw [← Option.some.inj h]
    rw [show (String.mk (formatYM ym.1 ym.2)).data = formatYM ym.1 ym.2 from rfl]
    rw [parseYM_formatYM hy hm1 hm2]
    rfl

theorem drop_duplicates_eq_self {α : Type} [DecidableEq α] :
    ∀ l : List α, l.Nodup → drop_duplicates l = l := by
  intro l
  induction l with
  | nil => intro _; rfl
  | cons x xs ih =>
    intro h
    rw [List.nodup_cons] at h
    unfold drop_duplicates
    rw [ih h.2, List.filter_eq_self.mpr]
    intro y hy
    simp only [decide_eq_true_eq]
    intro hyx
    exact h.1 (hyx ▸ hy)

theorem imputeStep_of_no_missing (col : List ((String × String) × Option ℚ))
    (h : ∀ e ∈ col, e.2.isSome = true) : imputeStep col = col := by
  unfold imputeStep
  rw [if_neg]
  intro hany
  obtain ⟨e, he, hnone⟩ := List.any_eq_true.mp hany
  have hs := h e he
  rw [Option.isNone_iff_eq_none.mp hnone] at hs
  cases hs

theorem clipStep_of_nonneg (col : List ((String × String) × Option ℚ))
    (h : ∀ e ∈ col, ∀ q, e.2 = some q → 0 ≤ q) : clipStep col = col := by
  unfold clipStep
  rw [if_neg]
  intro hany
  obtain ⟨e, he, hp⟩ := List.any_eq_true.mp hany
  rcases h2 : e.2 with - | q
  · rw [h2] at hp
    cases hp
  · rw [h2] at hp
    simp only [decide_eq_true_eq] at hp
    exact absurd (h e he q h2) (not_le.mpr hp)

theorem capStep_of_bounded (col : List ((String × String) × Option ℚ))
    (h : ∀ t, quantileLinear (col.filterMap fun e => e.2) (99/100) = some t →
      ∀ e ∈ col, ∀ q, e.2 = some q → q ≤ t) : capStep col = col := by
  unfold capStep
  rcases hq : quantileLinear (col.filterMap fun e => e.2) (99/100) with - | t
  · rfl
  · dsimp only
    rw [if_neg]
    intro hany
    obtain ⟨e, he, hp⟩ := List.any_eq_true.mp hany
    rcases h2 : e.2 with - | q
    · rw [h2] at hp
      cases hp
    · rw [h2] at hp
      simp only [decide_eq_true_eq] at hp
      exact absurd (h t hq e he q h2) (not_le.mpr hp)

theorem processColumn_eq_self (col : List ((String × String) × Option ℚ))
    (hdich : (∀ e ∈ col, e.2.isSome = true) ∨ (∀ e ∈ col, e.2 = none))
    (hnn : ∀ e ∈ col, ∀ q, e.2 = some q → 0 ≤ q)
    (hcap : ∀ t, quantileLinear (col.filterMap fun e => e.2) (99/100) = some t →
      ∀ e ∈ col, ∀ q, e.2 = some q → q ≤ t) :
    processColumn col = col := by
  unfold processColumn
  rcases hdich with hsome | hnone
  · rw [imputeStep_of_no_missing col hsome, clipStep_of_nonneg col hnn,
      capStep_of_bounded col hcap]
  · rw [imputeStep_of_all_none col hnone, clipStep_of_all_none col hnone,
      capStep_of_all_none col hnone]

theorem processRows_vals_length (rows : List PRow) (n : ℕ) :
    ∀ r ∈ processRows rows n, r.vals.length = n := by
  intro r hr
  unfold processRows at hr
  obtain ⟨i, hi, heq⟩ := List.mem_iff_getElem.mp hr
  rw [List.getElem_mapIdx] at heq
  rw [← heq]
  simp

theorem processRows_eq_self (rows : List PRow) (n : ℕ)
    (hlen : ∀ r ∈ rows, r.vals.length = n)
    (hcols : ∀ j, j < n → processColumn (colOf rows j) = colOf rows j) :
    processRows rows n = rows := by
  unfold processRows
  rw [List.mapIdx_eq_iff]
  intro i
  rcases hi : rows[i]? with - | r
  · rfl
  · rw [Option.map_some', Option.some_inj]
    have hilt : i < rows.length := by
      by_contra hcon
      rw [List.getElem?_eq_none (le_of_not_lt hcon)] at hi
      cases hi
    have hmem : r ∈ rows := by
      have h4 := List.getElem?_eq_getElem hilt
      rw [hi] at h4
      rw [Option.some.inj h4]
      exact List.getElem_mem hilt
    have hri : rows[i] = r := by
      have h4 := List.getElem?_eq_getElem hilt
      rw [hi] at h4
      exact (Option.some.inj h4).symm
    rcases hr : r with ⟨st, di, pe, vals⟩
    have h5 : vals.length = n := by
      have h6 := hlen r hmem
      rw [hr] at h6
      dsimp only at h6
      exact h6
    rw [PRow.mk.injEq]
    refine ⟨rfl, rfl, rfl, ?_⟩
    refine List.ext_getElem ?_ ?_
    · simp only [List.length_map, List.length_range]
      omega
    · intro j hj₁ hj₂
      have hjn : j < n := by
        simp only [List.length_map, List.length_range] at hj₁ hj₂
        omega
      rw [List.getElem_map, List.getElem_map, List.getElem_range]
      rw [hcols j hjn]
      have hcollen : i < (colOf rows j).length := by
        rw [show (colOf rows j).length = rows.length from by simp [colOf]]
        exact hilt
      rw [List.getD_eq_getElem?_getD, List.getElem?_eq_getElem hcollen,
        Option.getD_some]
      simp only [colOf, List.getElem_map]
      rw [hri, hr]
      dsimp only [PRow.gkey]
      have hjv : j < vals.length := by omega
      rw [List.getD_eq_getElem?_getD, List.getElem?_eq_getElem hjv, Option.getD_some]

theorem mem_drop_duplicates {α : Type} [DecidableEq α] :
    ∀ {l : List α} {a : α}, a ∈ drop_duplicates l → a ∈ l := by
  intro l
  induction l with
  | nil => intro a h; cases h
  | cons x xs ih =>
    intro a h
    unfold drop_duplicates at h
    rcases List.mem_cons.mp h with rfl | h2
    · exact List.mem_cons_self _ _
    · exact List.mem_cons_of_mem _ (ih (List.mem_of_mem_filter h2))

theorem mapM_option_id {α : Type} (f : α → Option α) :
    ∀ l : List α, (∀ a ∈ l, f a = some a) → l.mapM f = some l := by
  intro l
  induction l with
  | nil => intro _; rfl
  | cons x xs ih =>
    intro h
    rw [List.mapM_cons, h x (List.mem_cons_self _ _),
      ih fun a ha => h a (List.mem_cons_of_mem _ ha)]
    rfl

theorem mapM_option_mem {α β : Type} (f : α → Option β) :
    ∀ (l : List α) (l' : List β), l.mapM f = some l' →
      ∀ b ∈ l', ∃ a ∈ l, f a = some b := by
  intro l
  induction l with
  | nil =>
    intro l' h b hb
    rw [List.mapM_nil] at h
    rw [← Option.some.inj h] at hb
    cases hb
  | cons x xs ih =>
    intro l' h b hb
    rw [List.mapM_cons] at h
    rcases hfx : f x with - | y
    · rw [hfx] at h
      cases h
    · rw [hfx] at h
      rcases hxs : xs.mapM f with - | ys
      · rw [hxs] at h
        cases h
      · rw [hxs] at h
        have hl' : l' = y :: ys := by
          have h2 : (some (y :: ys) : Option (List β)) = some l' := h
          exact (Option.some.inj h2).symm
        subst hl'
        rcases List.mem_cons.mp hb with rfl | hb2
        · exact ⟨x, List.mem_cons_self _ _, hfx⟩
        · obtain ⟨a, ha, hfa⟩ := ih ys hxs b hb2
          exact ⟨a, List.mem_cons_of_mem _ ha, hfa⟩

theorem processRows_key_fields (rows : List PRow) (n : ℕ) :
    ∀ r ∈ processRows rows n, ∃ r₀ ∈ rows,
      r.state = r₀.state ∧ r.district = r₀.district ∧ r.period = r₀.period := by
  intro r hr
  unfold processRows at hr
  obtain ⟨i, hi, heq⟩ := List.mem_iff_getElem.mp hr
  rw [List.getElem_mapIdx] at heq
  have hi2 : i < rows.length := by simpa using hi
  refine ⟨rows[i], List.getElem_mem hi2, ?_, ?_, ?_⟩ <;> rw [← heq]

theorem clean_common_columns_some {d d₁ : PData} (h : clean_common_columns d = some d₁) :
    ∃ rows₀, d.rows.mapM (fun r => (normPeriod r.period).map fun p =>
        PRow.mk (cleanName r.state) (cleanName r.district) p r.vals) = some rows₀ ∧
      d₁ = ⟨d.headers.map normalizeColName, d.ncols, drop_duplicates rows₀⟩ := by
  unfold clean_common_columns at h
  rcases hm : d.rows.mapM (fun r => (normPeriod r.period).map fun p =>
      PRow.mk (cleanName r.state) (cleanName r.district) p r.vals) with - | rows₀
  · rw [hm] at h
    cases h
  · rw [hm] at h
    simp only [Option.map_some'] at h
    exact ⟨rows₀, hm, (Option.some.inj h).symm⟩

/-- C6 (amended): the preprocessing transform is idempotent on its own
output provided the cleaned rows are pairwise distinct and no value of any
cleaned column exceeds that column's own 99th percentile; the
string-cleaning, period normalization, deduplication, imputation and
negative-clip stages are then all no-ops, and under the percentile
proviso so is the outlier cap.  Without the proviso a second run can cap
further values (see the counterexample). -/
theorem preprocess_idempotent_of_no_new_outliers :
    ∀ (d c : PData), preprocess_dataset d = some c →
      c.rows.Nodup →
      (∀ j, j < c.ncols → ∀ t,
        quantileLinear ((colOf c.rows j).filterMap fun e => e.2) (99/100) = some t →
        ∀ e ∈ colOf c.rows j, ∀ q, e.2 = some q → q ≤ t) →
      preprocess_dataset c = some c := by
  intro d c hpre hnodup hcap
  obtain ⟨d₁, hclean, hc⟩ : ∃ d₁, clean_common_columns d = some d₁ ∧
      c = ⟨d₁.headers, d₁.ncols, processRows d₁.rows d₁.ncols⟩ := by
    unfold preprocess_dataset at hpre
    rcases hm : clean_common_columns d with - | d₁
    · rw [hm] at hpre
      cases hpre
    · rw [hm] at hpre
      simp only [Option.map_some'] at hpre
      exact ⟨d₁, rfl, (Option.some.inj hpre).symm⟩
  obtain ⟨rows₀, hmapM, hd₁⟩ := clean_common_columns_some hclean
  have hrows_c : c.rows = processRows d₁.rows d₁.ncols := by rw [hc]
  have hncols_c : c.ncols = d₁.ncols := by rw [hc]
  have hheaders_c : c.headers = d₁.headers := by rw [hc]
  have hfields : ∀ r ∈ c.rows, (cleanName r.state = r.state ∧
      cleanName r.district = r.district) ∧ normPeriod r.period = some r.period := by
    intro r hr
    rw [hrows_c] at hr
    obtain ⟨r₁, hr₁, hst, hdi, hpe⟩ := processRows_key_fields _ _ r hr
    have hr₁' : r₁ ∈ rows₀ := by
      have hdr : d₁.rows = drop_duplicates rows₀ := by rw [hd₁]
      rw [hdr] at hr₁
      exact mem_drop_duplicates hr₁
    obtain ⟨r₀, -, hfr₀⟩ := mapM_option_mem _ _ _ hmapM r₁ hr₁'
    rcases hnp : normPeriod r₀.period with - | p
    · rw [hnp] at hfr₀
      cases hfr₀
    · rw [hnp] at hfr₀
      simp only [Option.map_some'] at hfr₀
      have hr₁eq := Option.some.inj hfr₀
      refine ⟨⟨?_, ?_⟩, ?_⟩
      · rw [hst, ← hr₁eq]
        exact cleanName_idem _
      · rw [hdi, ← hr₁eq]
        exact cleanName_idem _
      · rw [hpe, ← hr₁eq]
        exact normPeriod_roundtrip hnp
  have hvlen : ∀ r ∈ c.rows, r.vals.length = c.ncols := by
    intro r hr
    rw [hrows_c] at hr
    rw [hncols_c]
    exact processRows_vals_length _ _ r hr
  have hcols : ∀ j, j < c.ncols → processColumn (colOf c.rows j) = colOf c.rows j := by
    intro j hj
    have hcc : colOf c.rows j = processColumn (colOf d₁.rows j) := by
      rw [hrows_c]
      exact colOf_processRows _ _ j (hncols_c ▸ hj)
    refine processColumn_eq_self _ ?_ ?_ (hcap j hj)
    · rw [hcc]
      exact processColumn_dichotomy _
    · rw [hcc]
      exact processColumn_nonneg _
  have hclean₂ : clean_common_columns c = some ⟨c.headers, c.ncols, c.rows⟩ := by
    unfold clean_common_columns
    rw [mapM_option_id _ c.rows fun r hr => ?_]
    · simp only [Option.map_some']
      rw [Option.some_inj]
      have hh : c.headers.map normalizeColName = c.headers := by
        have hdh : c.headers = d.headers.map normalizeColName := by
          rw [hheaders_c, hd₁]
        rw [hdh, List.map_map]
        exact List.map_congr_left fun a _ => normalizeColName_idem a
      rw [hh, drop_duplicates_eq_self _ hnodup]
    · obtain ⟨⟨hst, hdi⟩, hpe⟩ := hfields r hr
      rw [hpe]
      simp only [Option.map_some']
      rw [Option.some_inj, hst, hdi]
  unfold preprocess_dataset
  rw [hclean₂]
  simp only [Option.map_some']
  rw [Option.some_inj]
  rw [processRows_eq_self c.rows c.ncols hvlen hcols]

theorem capStep_eval_0_99 :
    capStep [((("A", "D1") : String × String), some (0:ℚ)), (("A", "D2"), some 99)] =
      [((("A", "D1") : String × String), some (0:ℚ)), (("A", "D2"), some (9801/100))] := by
  unfold capStep
  rw [show (List.filterMap (fun e => e.2)
      [((("A", "D1") : String × String), some (0:ℚ)), (("A", "D2"), some 99)]) =
      [(0:ℚ), 99] from rfl]
  rw [quantile99_of_0_99]
  dsimp only
  rw [if_pos]
  · simp only [List.map_cons, List.map_nil, Option.map_some']
    rw [if_neg (by norm_num), if_pos (by norm_num)]
  · simp only [List.any_cons, List.any_nil]
    norm_num

theorem processColumn_eval_0_99 :
    processColumn [((("A", "D1") : String × String), some (0:ℚ)), (("A", "D2"), some 99)] =
      [((("A", "D1") : String × String), some (0:ℚ)), (("A", "D2"), some (9801/100))] := by
  unfold processColumn
  rw [show imputeStep [((("A", "D1") : String × String), some (0:ℚ)), (("A", "D2"), some 99)] =
      [((("A", "D1") : String × String), some (0:ℚ)), (("A", "D2"), some 99)] from by decide]
  rw [show clipStep [((("A", "D1") : String × String), some (0:ℚ)), (("A", "D2"), some 99)] =
      [((("A", "D1") : String × String), some (0:ℚ)), (("A", "D2"), some 99)] from by decide]
  exact capStep_eval_0_99

theorem preprocess_eval_0_99 :
    preprocess_dataset ⟨["state", "district", "period", "v"], 1,
      [⟨"A", "D1", "2023-01", [some 0]⟩, ⟨"A", "D2", "2023-01", [some 99]⟩]⟩ =
    some ⟨["state", "district", "period", "v"], 1,
      [⟨"A", "D1", "2023-01", [some 0]⟩, ⟨"A", "D2", "2023-01", [some (9801/100)]⟩]⟩ := by
  unfold preprocess_dataset
  rw [show clean_common_columns ⟨["state", "district", "period", "v"], 1,
      [⟨"A", "D1", "2023-01", [some 0]⟩, ⟨"A", "D2", "2023-01", [some 99]⟩]⟩ =
      some ⟨["state", "district", "period", "v"], 1,
        [⟨"A", "D1", "2023-01", [some 0]⟩, ⟨"A", "D2", "2023-01", [some 99]⟩]⟩ from by decide]
  rw [Option.map_some', Option.some_inj]
  show PData.mk _ _ (processRows _ 1) = _
  unfold processRows
  rw [show List.range 1 = [0] from rfl]
  dsimp only [List.map_cons, List.map_nil]
  rw [show colOf [(⟨"A", "D1", "2023-01", [some 0]⟩ : PRow),
      ⟨"A", "D2", "2023-01", [some 99]⟩] 0 =
      [((("A", "D1") : String × String), some (0:ℚ)), (("A", "D2"), some 99)] from by decide]
  rw [processColumn_eval_0_99]
  rw [PData.mk.injEq]
  refine ⟨rfl, rfl, ?_⟩
  rfl

/-- Counterexample for C6 as stated: running the preprocessing transform on
the dataset with column values 0 and 100 yields the cleaned column [0, 99];
running it again on that output caps 99 at the new 99th percentile 98.01,
so the second run changes the data. -/
theorem preprocess_not_idempotent_counterexample :
    preprocess_dataset ⟨["State", "District", "Period", "V"], 1,
        [⟨"A", "D1", "2023-01", [some 0]⟩, ⟨"A", "D2", "2023-01", [some 100]⟩]⟩ =
      some ⟨["state", "district", "period", "v"], 1,
        [⟨"A", "D1", "2023-01", [some 0]⟩, ⟨"A", "D2", "2023-01", [some 99]⟩]⟩ ∧
    preprocess_dataset ⟨["state", "district", "period", "v"], 1,
        [⟨"A", "D1", "2023-01", [some 0]⟩, ⟨"A", "D2", "2023-01", [some 99]⟩]⟩ =
      some ⟨["state", "district", "period", "v"], 1,
        [⟨"A", "D1", "2023-01", [some 0]⟩, ⟨"A", "D2", "2023-01", [some (9801/100)]⟩]⟩ ∧
    (⟨["state", "district", "period", "v"], 1,
        [⟨"A", "D1", "2023-01", [some 0]⟩, ⟨"A", "D2", "2023-01", [some (9801/100)]⟩]⟩ :
          PData) ≠
      ⟨["state", "district", "period", "v"], 1,
        [⟨"A", "D1", "2023-01", [some 0]⟩, ⟨"A", "D2", "2023-01", [some 99]⟩]⟩ := by
  refine ⟨preprocess_eval_0_100, preprocess_eval_0_99, ?_⟩
  intro h
  simp only [PData.mk.injEq, List.cons.injEq, PRow.mk.injEq, Option.some.injEq,
    and_true, true_and] at h
  norm_num at h

theorem capStep_eval_5_5 :
    capStep [((("A", "D1") : String × String), some (5:ℚ)), (("B", "D1"), some 5)] =
      [((("A", "D1") : String × String), some (5:ℚ)), (("B", "D1"), some 5)] := by
  unfold capStep
  rw [show (List.filterMap (fun e => e.2)
      [((("A", "D1") : String × String), some (5:ℚ)), (("B", "D1"), some 5)]) =
      [(5:ℚ), 5] from rfl]
  rw [quantile99_of_5_5]
  dsimp only
  rw [if_neg]
  decide

theorem preprocess_eval_5_5 :
    preprocess_dataset ⟨["state", "district", "period", "v"], 1,
      [⟨"A", "D1", "2023-01", [some 5]⟩, ⟨"B", "D1", "2023-01", [some 5]⟩]⟩ =
    some ⟨["state", "district", "period", "v"], 1,
      [⟨"A", "D1", "2023-01", [some 5]⟩, ⟨"B", "D1", "2023-01", [some 5]⟩]⟩ := by
  unfold preprocess_dataset
  rw [show clean_common_columns ⟨["state", "district", "period", "v"], 1,
      [⟨"A", "D1", "2023-01", [some 5]⟩, ⟨"B", "D1", "2023-01", [some 5]⟩]⟩ =
      some ⟨["state", "district", "period", "v"], 1,
        [⟨"A", "D1", "2023-01", [some 5]⟩, ⟨"B", "D1", "2023-01", [some 5]⟩]⟩ from by decide]
  rw [Option.map_some', Option.some_inj]
  show PData.mk _ _ (processRows _ 1) = _
  unfold processRows
  rw [show List.range 1 = [0] from rfl]
  dsimp only [List.map_cons, List.map_nil]
  rw [show colOf [(⟨"A", "D1", "2023-01", [some 5]⟩ : PRow),
      ⟨"B", "D1", "2023-01", [some 5]⟩] 0 =
      [((("A", "D1") : String × String), some (5:ℚ)), (("B", "D1"), some 5)] from by decide]
  rw [show processColumn [((("A", "D1") : String × String), some (5:ℚ)),
      (("B", "D1"), some 5)] =
      [((("A", "D1") : String × String), some (5:ℚ)), (("B", "D1"), some 5)] from by
    unfold processColumn
    rw [show imputeStep [((("A", "D1") : String × String), some (5:ℚ)),
        (("B", "D1"), some 5)] = [((("A", "D1") : String × String), some (5:ℚ)),
        (("B", "D1"), some 5)] from by decide]
    rw [show clipStep [((("A", "D1") : String × String), some (5:ℚ)),
        (("B", "D1"), some 5)] = [((("A", "D1") : String × String), some (5:ℚ)),
        (("B", "D1"), some 5)] from by decide]
    exact capStep_eval_5_5]
  rw [PData.mk.injEq]
  exact ⟨rfl, rfl, rfl⟩

/-- Witness for C6 (amended) on a concrete already-clean dataset with a
constant column: re-running the preprocessing returns it unchanged. -/
theorem preprocess_idempotent_witness :
    preprocess_dataset ⟨["state", "district", "period", "v"], 1,
      [⟨"A", "D1", "2023-01", [some 5]⟩, ⟨"B", "D1", "2023-01", [some 5]⟩]⟩ =
    some ⟨["state", "district", "period", "v"], 1,
      [⟨"A", "D1", "2023-01", [some 5]⟩, ⟨"B", "D1", "2023-01", [some 5]⟩]⟩ := by
  refine preprocess_idempotent_of_no_new_outliers
    ⟨["state", "district", "period", "v"], 1,
      [⟨"A", "D1", "2023-01", [some 5]⟩, ⟨"B", "D1", "2023-01", [some 5]⟩]⟩ _
    preprocess_eval_5_5 (by decide) ?_
  intro j hj t ht e he q hq
  have hj0 : j = 0 := by
    simpa using Nat.lt_one_iff.mp hj
  subst hj0
  rw [show colOf (⟨["state", "district", "period", "v"], 1,
      [⟨"A", "D1", "2023-01", [some 5]⟩, ⟨"B", "D1", "2023-01", [some 5]⟩]⟩ : PData).rows 0 =
      [((("A", "D1") : String × String), some (5:ℚ)), (("B", "D1"), some 5)] from by decide]
      at ht he
  rw [show (List.filterMap (fun e => e.2)
      [((("A", "D1") : String × String), some (5:ℚ)), (("B", "D1"), some 5)]) =
      [(5:ℚ), 5] from rfl, quantile99_of_5_5] at ht
  have hts : t = 5 := (Option.some.inj ht).symm
  subst hts
  have he5 : e.2 = some 5 := by
    rcases List.mem_cons.mp he with rfl | he2
    · rfl
    · rcases List.mem_cons.mp he2 with rfl | he3
      · rfl
      · cases he3
  rw [he5] at hq
  rw [← Option.some.inj hq]
